import Mathlib

/-!
# Verification of the pathfinder maze core

Shallow embedding of the maze/pathfinding core of the repository
(`src/lib.rs`, `src/main.rs`): the grid model (`Point`, `GridCell`, `Maze`),
its accessors (`new`, `index`, `get`, `set`, `neighbors`, `successors`),
the recursive-backtracker maze generator (`generate_maze`), and the
pathfinding layer (`Path::calc` dispatching on `Algorithm`).

Modelling conventions:
* Rust `usize` becomes `Nat`; `isize` intermediates become `Int`.
* A Rust panic (`expect`, `expect_throw`) is modelled by `Option`:
  `none` is the panic outcome, `some v` the normal return.
* `rand::thread_rng` is modelled by an explicit oracle `rng : Nat → Nat`
  consulted once per carving step (the code draws one random index per
  carving step, nothing else is randomized).
* Rendering-only state (`cell_size`, canvas access) is omitted: it never
  influences the cell grid or the computed paths.
* The search strategies `bfs`, `dfs`, `dijkstra` come from the external
  `pathfinding` crate whose code is not part of this repository; they are
  modelled from the spec (see the doc comments on `bfsLoop`, `dfsStepF`,
  `Maze.dijkstra`).
-/

/-- `Point { x: usize, y: usize }` from `src/lib.rs`. -/
structure Point where
  x : Nat
  y : Nat
deriving DecidableEq

/-- `enum GridCell { Wall, Path }` from `src/lib.rs`. -/
inductive GridCell where
  | Wall : GridCell
  | Path : GridCell
deriving DecidableEq

/-- `struct Maze { width, height, cells, cell_size }`; the rendering-only
`cell_size : f64` field is omitted. `cells` is the dense row-major cell
vector. -/
structure Maze where
  width : Nat
  height : Nat
  cells : List GridCell
deriving DecidableEq

/-- `enum Algorithm { Dijkstra, Bfs, Dfs }` from `src/lib.rs`. -/
inductive Algorithm where
  | Dijkstra : Algorithm
  | Bfs : Algorithm
  | Dfs : Algorithm
deriving DecidableEq

/-- `Point::to(from, x, y)`: adds signed offsets and converts back with
`usize::try_from(..).expect_throw(..)`; a negative coordinate panics,
modelled by `none`. -/
def Point.to (p : Point) (dx dy : Int) : Option Point :=
  let x : Int := (p.x : Int) + dx
  let y : Int := (p.y : Int) + dy
  if 0 ≤ x ∧ 0 ≤ y then some ⟨x.toNat, y.toNat⟩ else none

/-- `Maze::new(width, height)`: allocates `width * height` cells, all `Wall`.
There is no dimension check in the source. -/
def Maze.new (width height : Nat) : Maze :=
  ⟨width, height, List.replicate (width * height) GridCell.Wall⟩

/-- `Maze::index(x, y) = y * width + x` (row-major, no bounds check). -/
def Maze.index (m : Maze) (x y : Nat) : Nat :=
  y * m.width + x

/-- `Maze::get(x, y)`: `Some(cells[index])` when `x < width && y < height`,
`None` otherwise. The in-bounds vector access is modelled by `List` optional
indexing; for every grid with `cells.length = width * height` the index is
in range, matching the source exactly. -/
def Maze.get (m : Maze) (x y : Nat) : Option GridCell :=
  if x < m.width ∧ y < m.height then m.cells[m.index x y]? else none

/-- `Maze::set(x, y, cell)`: unchecked write `cells[index(x, y)] = cell`.
In Rust this indexing panics when `index(x, y) ≥ cells.len()`, whereas
`List.set` leaves the list unchanged there, so this total function is
faithful only for writes whose flat index is in range (in-range writes with
`x ≥ width` still alias, exactly as in the source). `Maze.setChecked` below
models the same write with the out-of-range panic made explicit, and the
generation loop is embedded in both forms (`genStep` / `genStepP`). -/
def Maze.set (m : Maze) (x y : Nat) (c : GridCell) : Maze :=
  { m with cells := m.cells.set (m.index x y) c }

/-- `Maze::set(x, y, cell)` with Rust's panic made explicit: the write
`cells[i] = cell` panics (`none`) when the flat index `i = index(x, y)` is
at or beyond `cells.len()`, and performs the in-range `Maze.set` write
otherwise. -/
def Maze.setChecked (m : Maze) (x y : Nat) (c : GridCell) : Option Maze :=
  if m.index x y < m.cells.length then some (m.set x y c) else none

/-- Loop body of `Maze::neighbors`: append the offset point when the signed
coordinates convert back to `usize` (`try_into`) and lie within bounds. -/
def neighborStep (m : Maze) (p : Point) (acc : List Point) (d : Int × Int) :
    List Point :=
  let nx : Int := (p.x : Int) + d.1
  let ny : Int := (p.y : Int) + d.2
  if 0 ≤ nx ∧ 0 ≤ ny ∧ nx.toNat < m.width ∧ ny.toNat < m.height then
    acc ++ [⟨nx.toNat, ny.toNat⟩]
  else acc

/-- `Maze::neighbors(point)`: the up-to-4 points at offsets
`(±2,0), (0,±2)` that convert to `usize` and lie within bounds
(the generation-time doubled adjacency). -/
def Maze.neighbors (m : Maze) (p : Point) : List Point :=
  ([(2, 0), (-2, 0), (0, 2), (0, -2)] : List (Int × Int)).foldl
    (neighborStep m p) []

/-- The filter of `Maze::successors`:
`self.get(x, y).is_some_and(|c| c != GridCell::Wall)`. -/
def notWallB (m : Maze) (q : Point) : Bool :=
  match m.get q.x q.y with
  | some cell => decide (cell ≠ GridCell.Wall)
  | none => false

/-- `Maze::successors(start)`: builds the four unit-offset points with
`Point::to` (panicking — `none` — as soon as one coordinate would become
negative, i.e. whenever `start.x = 0` or `start.y = 0`), then keeps those
whose cell state is not `Wall`. -/
def Maze.successors (m : Maze) (s : Point) : Option (List Point) :=
  match Point.to s (-1) 0, Point.to s 1 0, Point.to s 0 (-1), Point.to s 0 1 with
  | some a, some b, some c, some d => some (([a, b, c, d]).filter (notWallB m))
  | _, _, _, _ => none

/-- The loop state of `Maze::generate_maze`: the maze being carved, the
explicit stack (`VecDeque` used as a stack: head of the list is the back of
the deque), the visited set (as a list), and the number of random draws made
so far (the oracle cursor). -/
structure GenState where
  maze : Maze
  stack : List Point
  visited : List Point
  k : Nat
deriving DecidableEq

/-- The initialization of `Maze::generate_maze`: push the start and mark it
visited. No cell state is written here. -/
def genInit (m : Maze) (start : Point) : GenState :=
  ⟨m, [start], [start], 0⟩

/-- One iteration of the `while let Some(current) = stack.back()` loop of
`Maze::generate_maze`. `none` means the stack is empty and the loop ends.
The random neighbor choice is `unvisited[rng k % len]`. -/
def genStep (rng : Nat → Nat) (st : GenState) : Option GenState :=
  match st.stack with
  | [] => none
  | current :: rest =>
    let unvisited := (st.maze.neighbors current).filter
      (fun n => decide (n ∉ st.visited))
    if h : unvisited = [] then
      some ⟨st.maze, rest, st.visited, st.k + 1⟩
    else
      let next := unvisited.get
        ⟨rng st.k % unvisited.length,
         Nat.mod_lt _ (List.length_pos.mpr h)⟩
      let wall : Point := ⟨(current.x + next.x) / 2, (current.y + next.y) / 2⟩
      let m1 := (st.maze.set wall.x wall.y GridCell.Path).set
        next.x next.y GridCell.Path
      some ⟨m1, next :: st.stack, next :: st.visited, st.k + 1⟩

/-- The generation loop, driven by fuel; `genFuel` fuel always suffices to
reach the empty stack (theorem `genLoop_empty`). This form keeps `Maze.set`
total; the loop with the write panic made explicit is `genLoopP` below. -/
def genLoopF (rng : Nat → Nat) : Nat → GenState → GenState
  | 0, st => st
  | fuel + 1, st =>
    match genStep rng st with
    | none => st
    | some st' => genLoopF rng fuel st'

/-- Enough fuel for the generation loop: the measure
`2 * (in-bounds cells not yet visited) + stack length` starts below this. -/
def genFuel (m : Maze) : Nat :=
  2 * (m.width * m.height) + 2

/-- `Maze::generate_maze(start)` with the randomness oracle made explicit. -/
def Maze.generate_maze (m : Maze) (start : Point) (rng : Nat → Nat) : Maze :=
  (genLoopF rng (genFuel m) (genInit m start)).maze

/-- `draw_maze(size)` from `src/lib.rs`, restricted to the algorithmic core:
allocate a `size × size` grid, open the cell `(1,1)`, then generate the maze
from start `(1,1)`. (The canvas drawing calls are rendering-only.) -/
def draw_maze (size : Nat) (rng : Nat → Nat) : Maze :=
  ((Maze.new size size).set 1 1 GridCell.Path).generate_maze ⟨1, 1⟩ rng

/-- The carve of one generation iteration, with `Maze::set`'s panic made
explicit: the code runs `set(wall, Path)` and then `set(next, Path)`, and
each write panics when its flat index is at or beyond `cells.len()`
(`List.set` keeps the vector length, so both checks test the same length).
`some none` reports a panicked write; a completed carve opens the midpoint
wall and `next`, pushes `next` and marks it visited. -/
def genCarveP (st : GenState) (current next : Point) :
    Option (Option GenState) :=
  match (st.maze.setChecked ((current.x + next.x) / 2)
      ((current.y + next.y) / 2) GridCell.Path).bind
      (fun m1 => m1.setChecked next.x next.y GridCell.Path) with
  | none => some none
  | some m1 =>
    some (some ⟨m1, next :: st.stack, next :: st.visited, st.k + 1⟩)

/-- One iteration of the `Maze::generate_maze` loop with the write panic
of `Maze::set` made explicit: `none` means the stack is empty and the
`while let` loop ends; `some none` means an out-of-range carve write
panicked; `some (some st')` is a completed iteration, with exactly the
state `genStep` computes. -/
def genStepP (rng : Nat → Nat) (st : GenState) : Option (Option GenState) :=
  match st.stack with
  | [] => none
  | current :: rest =>
    let unvisited := (st.maze.neighbors current).filter
      (fun n => decide (n ∉ st.visited))
    if h : unvisited = [] then
      some (some ⟨st.maze, rest, st.visited, st.k + 1⟩)
    else
      genCarveP st current
        (unvisited.get ⟨rng st.k % unvisited.length,
          Nat.mod_lt _ (List.length_pos.mpr h)⟩)

/-- The generation loop with the write panic made explicit: `none` is a
panic escaping the loop, otherwise the state reached when the stack (or
the fuel) runs out. -/
def genLoopP (rng : Nat → Nat) : Nat → GenState → Option GenState
  | 0, st => some st
  | fuel + 1, st =>
    match genStepP rng st with
    | none => some st
    | some none => none
    | some (some st') => genLoopP rng fuel st'

/-! ## The search strategies

The three strategies come from the external `pathfinding` crate; its code is
not part of this repository, so they are modelled from the spec. All share
the repository's `Maze.successors` adjacency and its panic behaviour: the
outer `Option` layer is the panic (`none` = some call panicked), the inner
`Option` is the search outcome (`some none` = no path found). -/

/-- One successor of one frontier path: skip it when already visited,
otherwise mark it visited and record the extended path. -/
def expandStep (path : List Point) (acc : List Point × List (List Point))
    (n : Point) : List Point × List (List Point) :=
  if n ∈ acc.1 then acc else (n :: acc.1, acc.2 ++ [n :: path])

/-- Expand one stored frontier path (held in reverse: head = endpoint,
last = start) by all not-yet-visited successors of its endpoint, threading
the visited list. `none` propagates a `successors` panic. -/
def expandPath (m : Maze) (visited : List Point) (path : List Point) :
    Option (List Point × List (List Point)) :=
  match path with
  | [] => some (visited, [])
  | p :: _ =>
    match m.successors p with
    | none => none
    | some succs => some (succs.foldl (expandStep path) (visited, []))

/-- Expand a whole level of frontier paths. -/
def expandLevel (m : Maze) (visited : List Point) :
    List (List Point) → Option (List Point × List (List Point))
  | [] => some (visited, [])
  | path :: rest =>
    match expandPath m visited path with
    | none => none
    | some (v1, new1) =>
      match expandLevel m v1 rest with
      | none => none
      | some (v2, new2) => some (v2, new1 ++ new2)

/-- Modelled from the spec: breadth-first search "explores the graph level
by level from start"; the missing code is the `pathfinding` crate's `bfs`.
Each level: if some frontier path has reached the goal, return it
(reversed into start-to-goal order); otherwise expand every frontier path
by one step and recurse. -/
def bfsLoop (m : Maze) (goal : Point) :
    Nat → List Point → List (List Point) → Option (Option (List Point))
  | 0, _, _ => some none
  | _ + 1, _, [] => some none
  | fuel + 1, visited, path :: paths =>
    match (path :: paths).find? (fun q => decide (q.head? = some goal)) with
    | some found => some (some found.reverse)
    | none =>
      match expandLevel m visited (path :: paths) with
      | none => none
      | some (v', frontier') => bfsLoop m goal fuel v' frontier'

/-- Enough fuel for the searches: each executed level adds at least one new
in-bounds point to the visited list. -/
def searchFuel (m : Maze) : Nat :=
  m.width * m.height + 2

/-- Modelled from the spec: the `bfs(start, successors, goal-check)` call of
`Path::calc` over the crate's breadth-first search. -/
def Maze.bfs (m : Maze) (start goal : Point) : Option (Option (List Point)) :=
  bfsLoop m goal (searchFuel m) [start] [[start]]

/-- Modelled from the spec: uniform-cost search with every edge cost 1;
"since all edges cost 1, this is equivalent in result to breadth-first",
so its result is the breadth-first result. -/
def Maze.dijkstra (m : Maze) (start goal : Point) :
    Option (Option (List Point)) :=
  m.bfs start goal

/-- Modelled from the spec: depth-first search "explores greedily along one
branch before backtracking"; the missing code is the `pathfinding` crate's
`dfs`. The current candidate path is held in reverse (head = current node);
a successor already on the path is skipped, otherwise the search descends
and on failure backtracks to the next successor. -/
def dfsStepF (m : Maze) (goal : Point) :
    Nat → List Point → Option (Option (List Point))
  | 0, _ => some none
  | fuel + 1, path =>
    match path.head? with
    | none => some none
    | some cur =>
      if cur = goal then some (some path.reverse)
      else
        match m.successors cur with
        | none => none
        | some succs =>
          succs.foldl
            (fun acc n =>
              match acc with
              | some none =>
                if n ∈ path then some none
                else dfsStepF m goal fuel (n :: path)
              | r => r)
            (some none)

/-- Modelled from the spec: the `dfs(start, successors, goal-check)` call of
`Path::calc`. -/
def Maze.dfs (m : Maze) (start goal : Point) : Option (Option (List Point)) :=
  dfsStepF m goal (searchFuel m) [start]

/-- `Path::calc(maze, start, goal, algorithm)`: dispatch on the algorithm,
then `path.expect("failed to generate path")` — a `None` search outcome
panics, modelled by collapsing both panic layers into `none`. (`calc` is a
reserved word in Lean, hence the name.) -/
def Path.calcSteps (m : Maze) (start goal : Point) (alg : Algorithm) :
    Option (List Point) :=
  let r :=
    match alg with
    | Algorithm.Bfs => m.bfs start goal
    | Algorithm.Dfs => m.dfs start goal
    | Algorithm.Dijkstra => m.dijkstra start goal
  match r with
  | none => none
  | some none => none
  | some (some p) => some p

/-! ## Specification-level vocabulary used by the claims -/

/-- Reachability by the generation-time doubled-step adjacency
(`Maze::neighbors`), from the start point. -/
inductive Reach2 (m : Maze) (s : Point) : Point → Prop
  | refl : Reach2 m s s
  | step {p q : Point} : Reach2 m s p → q ∈ m.neighbors p → Reach2 m s q

/-- The traversal edge relation of the claims: `b` is among the successors
of `a` (in particular `successors a` does not panic). -/
def edgeB (m : Maze) (a b : Point) : Bool :=
  match m.successors a with
  | some l => decide (b ∈ l)
  | none => false

/-- A cell is `Open` exactly when `get` returns the `Path` state. -/
def openCellB (m : Maze) (p : Point) : Bool :=
  decide (m.get p.x p.y = some GridCell.Path)

/-- Unit Manhattan distance (the claims' "4-directionally adjacent"). -/
def adjB (a b : Point) : Bool :=
  decide (Nat.dist a.x b.x + Nat.dist a.y b.y = 1)

/-- An Open-cell route in the claims' sense: a nonempty sequence of `Open`
cells in which consecutive cells are at unit Manhattan distance. -/
def openRouteB (m : Maze) : List Point → Bool
  | [] => false
  | [p] => openCellB m p
  | a :: b :: rest => openCellB m a && adjB a b && openRouteB m (b :: rest)

/-- An Open-cell route from `s` to `g`. -/
def IsOpenRoute (m : Maze) (s g : Point) (l : List Point) : Prop :=
  openRouteB m l = true ∧ l.head? = some s ∧ l.getLast? = some g

instance (m : Maze) (s g : Point) (l : List Point) :
    Decidable (IsOpenRoute m s g l) := by
  unfold IsOpenRoute
  infer_instance

/-- A chain of `successors` edges (the adjacency the searches actually use). -/
def edgeRouteB (m : Maze) : List Point → Bool
  | [] => false
  | [_] => true
  | a :: b :: rest => edgeB m a b && edgeRouteB m (b :: rest)

/-- Every `Open` cell of the grid has both coordinates at least 1, i.e. no
`Open` cell touches the `x = 0` or `y = 0` border (where `Point::to`
panics). -/
def borderClearB (m : Maze) : Bool :=
  (List.range m.width).all fun x =>
    (List.range m.height).all fun y =>
      decide (m.get x y = some GridCell.Path → 1 ≤ x ∧ 1 ≤ y)

/-- A room of the start's doubled-step sublattice: in bounds, with both
coordinate parities equal to the start's. -/
def roomB (m : Maze) (s p : Point) : Bool :=
  decide (p.x < m.width ∧ p.y < m.height ∧
    p.x % 2 = s.x % 2 ∧ p.y % 2 = s.y % 2)

/-- A midpoint between two rooms of the start's sublattice that are at
doubled-step distance from each other. -/
def midB (m : Maze) (s p : Point) : Bool :=
  (decide (1 ≤ p.x) && roomB m s ⟨p.x - 1, p.y⟩ && roomB m s ⟨p.x + 1, p.y⟩) ||
  (decide (1 ≤ p.y) && roomB m s ⟨p.x, p.y - 1⟩ && roomB m s ⟨p.x, p.y + 1⟩)

/-- The cells the claims allow generation to write: rooms of the start's
sublattice and midpoints between two doubled-step-adjacent rooms. -/
def writableB (m : Maze) (s p : Point) : Bool :=
  roomB m s p || midB m s p

/-- A fixed randomness oracle used for concrete runs: always draw index 0. -/
def rng0 : Nat → Nat := fun _ => 0

/-- The finite set of in-bounds points of a `width × height` grid
(used for the termination measures). -/
def allPoints (width height : Nat) : Finset Point :=
  (Finset.range width ×ˢ Finset.range height).image fun q => ⟨q.1, q.2⟩

/-- The number of in-bounds points of `m` not yet in the list `vs`. -/
def unvisCard (m : Maze) (vs : List Point) : Nat :=
  ((allPoints m.width m.height).filter fun p => p ∉ vs).card

/-- The number of in-bounds points of `m` in the list `vs`. -/
def visCard (m : Maze) (vs : List Point) : Nat :=
  ((allPoints m.width m.height).filter fun p => p ∈ vs).card

/-- Termination measure of the generation loop. -/
def genMeasure (st : GenState) : Nat :=
  2 * unvisCard st.maze st.visited + st.stack.length

/-- The loop invariant of the generator (relative to the initial maze `m`
and the start `s`): dimensions never change, stack and visited lists stay
duplicate-free, the stack holds visited points, the start stays visited,
every visited point is either still on the stack or has all its doubled
neighbors visited, and every visited point is doubled-step reachable. -/
def GenInv (m : Maze) (s : Point) (st : GenState) : Prop :=
  st.maze.width = m.width ∧ st.maze.height = m.height ∧
  st.stack.Nodup ∧ st.visited.Nodup ∧
  (∀ p ∈ st.stack, p ∈ st.visited) ∧
  s ∈ st.visited ∧
  (∀ v ∈ st.visited, v ∈ st.stack ∨ ∀ n ∈ m.neighbors v, n ∈ st.visited) ∧
  (∀ v ∈ st.visited, Reach2 m s v)

/-- A stored (reversed) search path: nonempty, rooted at the start, an edge
chain in forward order, and duplicate-free. -/
def RevPathOk (m : Maze) (s : Point) (p : List Point) : Prop :=
  p ≠ [] ∧ p.getLast? = some s ∧ edgeRouteB m p.reverse = true ∧ p.Nodup

/-- The part of the breadth-first invariant needed for path validity: every
frontier path is a stored search path whose points are all visited. -/
def FrontierOk (m : Maze) (s : Point) (visited : List Point)
    (frontier : List (List Point)) : Prop :=
  ∀ p ∈ frontier, RevPathOk m s p ∧ ∀ q ∈ p, q ∈ visited

/-- An edge route starting at `s` (in forward order). -/
def RouteFrom (m : Maze) (s : Point) (l : List Point) : Prop :=
  edgeRouteB m l = true ∧ l.head? = some s

/-- The full breadth-first level invariant at level `k`, relative to the
grid `m`, start `s` and goal `g`. -/
def LevelInv (m : Maze) (s g : Point) (visited : List Point)
    (frontier : List (List Point)) (k : Nat) : Prop :=
  FrontierOk m s visited frontier ∧
  (∀ p ∈ frontier, p.length = k + 1) ∧
  s ∈ visited ∧
  (∀ v ∈ visited, m.get v.x v.y = some GridCell.Path ∨ v = s) ∧
  (∀ l v, RouteFrom m s l → l.getLast? = some v → l.length ≤ k + 1 →
    v ∈ visited) ∧
  (∀ l v, RouteFrom m s l → l.getLast? = some v → l.length ≤ k →
    v ∈ visited ∧ ∀ p ∈ frontier, p.head? ≠ some v) ∧
  (∀ v ∈ visited, (∀ p ∈ frontier, p.head? ≠ some v) →
    ∀ L, m.successors v = some L → ∀ b ∈ L, b ∈ visited) ∧
  (g ∈ visited → ∃ p ∈ frontier, p.head? = some g)

/-! ## Basic facts about the grid operations -/

theorem Maze.width_set (m : Maze) (x y : Nat) (c : GridCell) :
    (m.set x y c).width = m.width := rfl

theorem Maze.height_set (m : Maze) (x y : Nat) (c : GridCell) :
    (m.set x y c).height = m.height := rfl

theorem Maze.neighbors_set (m : Maze) (x y : Nat) (c : GridCell) (p : Point) :
    (m.set x y c).neighbors p = m.neighbors p := rfl

theorem Maze.length_cells_set (m : Maze) (x y : Nat) (c : GridCell) :
    (m.set x y c).cells.length = m.cells.length := by
  simp [Maze.set]

/-- Membership after one `neighborStep`: either already present, or the
in-bounds offset point. -/
theorem mem_neighborStep {m : Maze} {p : Point} {acc : List Point}
    {d : Int × Int} {q : Point} (h : q ∈ neighborStep m p acc d) :
    q ∈ acc ∨ (q.x < m.width ∧ q.y < m.height) := by
  unfold neighborStep at h
  simp only [] at h
  split at h
  · rcases List.mem_append.mp h with h' | h'
    · exact Or.inl h'
    · rcases List.mem_singleton.mp h' with rfl
      rename_i hcond
      exact Or.inr ⟨hcond.2.2.1, hcond.2.2.2⟩
  · exact Or.inl h

/-- Points produced by `Maze.neighbors` are in bounds. -/
theorem Maze.mem_neighbors_bounds {m : Maze} {p q : Point}
    (h : q ∈ m.neighbors p) : q.x < m.width ∧ q.y < m.height := by
  unfold Maze.neighbors at h
  simp only [List.foldl_cons, List.foldl_nil] at h
  rcases mem_neighborStep h with h | h
  · rcases mem_neighborStep h with h | h
    · rcases mem_neighborStep h with h | h
      · rcases mem_neighborStep h with h | h
        · exact absurd h (List.not_mem_nil q)
        · exact h
      · exact h
    · exact h
  · exact h

/-- Membership in `allPoints` is exactly in-boundedness. -/
theorem mem_allPoints {width height : Nat} {p : Point} :
    p ∈ allPoints width height ↔ p.x < width ∧ p.y < height := by
  unfold allPoints
  constructor
  · intro h
    simp only [Finset.mem_image, Finset.mem_product, Finset.mem_range] at h
    obtain ⟨q, ⟨h1, h2⟩, rfl⟩ := h
    exact ⟨h1, h2⟩
  · intro ⟨h1, h2⟩
    simp only [Finset.mem_image, Finset.mem_product, Finset.mem_range]
    exact ⟨(p.x, p.y), ⟨h1, h2⟩, rfl⟩

/-- `visCard` is bounded by the grid area. -/
theorem visCard_le (m : Maze) (vs : List Point) :
    visCard m vs ≤ m.width * m.height := by
  unfold visCard
  calc ((allPoints m.width m.height).filter fun p => p ∈ vs).card
      ≤ (allPoints m.width m.height).card := Finset.card_filter_le _ _
    _ ≤ (Finset.range m.width ×ˢ Finset.range m.height).card :=
        Finset.card_image_le
    _ = m.width * m.height := by simp

/-- Adding a fresh in-bounds point grows `visCard` strictly. -/
theorem visCard_lt_cons {m : Maze} {vs : List Point} {q : Point}
    (hb : q.x < m.width ∧ q.y < m.height) (hq : q ∉ vs) :
    visCard m vs < visCard m (q :: vs) := by
  unfold visCard
  apply Finset.card_lt_card
  constructor
  · intro p hp
    simp only [Finset.mem_filter] at hp ⊢
    exact ⟨hp.1, List.mem_cons_of_mem _ hp.2⟩
  · intro hsub
    have hq' : q ∈ (allPoints m.width m.height).filter fun p => p ∈ q :: vs := by
      simp only [Finset.mem_filter, mem_allPoints]
      exact ⟨hb, List.mem_cons_self _ _⟩
    have := hsub hq'
    simp only [Finset.mem_filter] at this
    exact hq this.2

/-- Monotonicity of `visCard` in the visited list. -/
theorem visCard_le_of_subset {m : Maze} {vs ws : List Point}
    (h : ∀ p ∈ vs, p ∈ ws) : visCard m vs ≤ visCard m ws := by
  unfold visCard
  apply Finset.card_le_card
  intro p hp
  simp only [Finset.mem_filter] at hp ⊢
  exact ⟨hp.1, h p hp.2⟩

/-- A cell write with `Path` leaves every cell either unchanged or `Path` —
the generator never writes `Wall`. This holds for any target, even an
aliased out-of-range one. -/
theorem Maze.get_set_path_or (m : Maze) (a b x y : Nat) :
    (m.set a b GridCell.Path).get x y = m.get x y ∨
    (m.set a b GridCell.Path).get x y = some GridCell.Path := by
  unfold Maze.get Maze.set Maze.index
  simp only []
  split
  · rw [List.getElem?_set]
    split
    · split
      · exact Or.inr rfl
      · rename_i hxw hidx hlen
        rw [← hidx, List.getElem?_eq_none (by omega)]
        exact Or.inl rfl
    · exact Or.inl rfl
  · exact Or.inl rfl

/-- A write at an in-bounds target `(a, b)` does not change `get` at any
other coordinate pair `(x, y)` (row-major indices of distinct in-bounds
pairs differ). -/
theorem Maze.get_set_of_ne (m : Maze) {a b : Nat} (x y : Nat)
    (c : GridCell) (ha : a < m.width) (hb : b < m.height)
    (hne : ¬(x = a ∧ y = b)) :
    (m.set a b c).get x y = m.get x y := by
  unfold Maze.get Maze.set Maze.index
  simp only []
  split
  · rename_i hxy
    rw [List.getElem?_set_ne]
    intro hidx
    rcases hxy with ⟨hx, hy⟩
    have this : a = x ∧ b = y := by
      have hidx' : a + b * m.width = x + y * m.width := by
        rw [Nat.add_comm a, Nat.add_comm x]
        exact hidx
      have h2 := congrArg (· % m.width) hidx'
      simp only [Nat.add_mul_mod_self_right] at h2
      rw [Nat.mod_eq_of_lt ha, Nat.mod_eq_of_lt hx] at h2
      subst h2
      refine ⟨rfl, ?_⟩
      have h3 : b * m.width = y * m.width :=
        Nat.add_left_cancel hidx'
      exact Nat.eq_of_mul_eq_mul_right (by omega) h3
    exact hne ⟨this.1.symm, this.2.symm⟩
  · rfl

/-- `get` on a freshly constructed maze: `Wall` in bounds, `none` out of
bounds. -/
theorem Maze.get_new (width height x y : Nat) :
    (Maze.new width height).get x y =
      if x < width ∧ y < height then some GridCell.Wall else none := by
  unfold Maze.new Maze.get Maze.index
  simp only []
  split
  · rename_i hxy
    rw [List.getElem?_replicate, if_pos]
    calc y * width + x < y * width + width := by omega
      _ = (y + 1) * width := by ring
      _ ≤ height * width := Nat.mul_le_mul_right _ (by omega)
      _ = width * height := Nat.mul_comm _ _
  · rfl

/-! ## The successors adjacency -/

/-- `Point::to` succeeds when both result coordinates stay non-negative. -/
theorem Point.to_left {p : Point} (hx : 1 ≤ p.x) :
    Point.to p (-1) 0 = some ⟨p.x - 1, p.y⟩ := by
  unfold Point.to
  rw [if_pos (by constructor <;> omega)]
  simp only [Option.some.injEq, Point.mk.injEq]
  omega

theorem Point.to_right (p : Point) :
    Point.to p 1 0 = some ⟨p.x + 1, p.y⟩ := by
  unfold Point.to
  rw [if_pos (by constructor <;> omega)]
  simp only [Option.some.injEq, Point.mk.injEq]
  omega

theorem Point.to_up {p : Point} (hy : 1 ≤ p.y) :
    Point.to p 0 (-1) = some ⟨p.x, p.y - 1⟩ := by
  unfold Point.to
  rw [if_pos (by constructor <;> omega)]
  simp only [Option.some.injEq, Point.mk.injEq]
  omega

theorem Point.to_down (p : Point) :
    Point.to p 0 1 = some ⟨p.x, p.y + 1⟩ := by
  unfold Point.to
  rw [if_pos (by constructor <;> omega)]
  simp only [Option.some.injEq, Point.mk.injEq]
  omega

/-- `Point::to` panics (throws) when a coordinate would go negative. -/
theorem Point.to_neg_none {p : Point} (hx : p.x = 0) :
    Point.to p (-1) 0 = none := by
  unfold Point.to
  rw [if_neg (by omega)]

theorem Point.to_neg_none_y {p : Point} (hy : p.y = 0) :
    Point.to p 0 (-1) = none := by
  unfold Point.to
  rw [if_neg (by omega)]

/-- Away from the `x = 0` / `y = 0` border, `successors` returns the filter
of the four axis neighbors. -/
theorem Maze.successors_pos (m : Maze) {p : Point}
    (hx : 1 ≤ p.x) (hy : 1 ≤ p.y) :
    m.successors p = some
      (([⟨p.x - 1, p.y⟩, ⟨p.x + 1, p.y⟩, ⟨p.x, p.y - 1⟩, ⟨p.x, p.y + 1⟩] :
        List Point).filter (notWallB m)) := by
  unfold Maze.successors
  rw [Point.to_left hx, Point.to_right, Point.to_up hy, Point.to_down]

/-- On the border, `successors` panics. -/
theorem Maze.successors_border (m : Maze) {p : Point}
    (h : p.x = 0 ∨ p.y = 0) : m.successors p = none := by
  unfold Maze.successors
  rcases h with h | h
  · rw [Point.to_neg_none h]
  · rw [Point.to_neg_none_y h]
    rcases h1 : Point.to p (-1) 0 with _ | q <;> simp

/-- The successors filter keeps exactly the `Open` cells. -/
theorem notWallB_iff (m : Maze) (q : Point) :
    notWallB m q = true ↔ m.get q.x q.y = some GridCell.Path := by
  unfold notWallB
  cases h : m.get q.x q.y with
  | none => simp
  | some cell => cases cell <;> simp

/-- For `p` off the border, the four candidate points are exactly the points
at Manhattan distance 1 from `p`. -/
theorem mem_cand_iff {p : Point} (hx : 1 ≤ p.x) (hy : 1 ≤ p.y) (q : Point) :
    q ∈ ([⟨p.x - 1, p.y⟩, ⟨p.x + 1, p.y⟩, ⟨p.x, p.y - 1⟩, ⟨p.x, p.y + 1⟩] :
        List Point) ↔
      Nat.dist p.x q.x + Nat.dist p.y q.y = 1 := by
  obtain ⟨qx, qy⟩ := q
  simp only [List.mem_cons, List.mem_singleton, List.not_mem_nil, or_false,
    Point.mk.injEq, Nat.dist]
  omega

/-- Membership in a successful `successors` result means: unit Manhattan
distance from the queried point and an `Open` target cell. This needs no
border hypothesis: a successful result already implies `p` is off the
border. -/
theorem mem_successors_iff {m : Maze} {p : Point} {l : List Point}
    (h : m.successors p = some l) (q : Point) :
    q ∈ l ↔ Nat.dist p.x q.x + Nat.dist p.y q.y = 1 ∧
      m.get q.x q.y = some GridCell.Path := by
  have hx : 1 ≤ p.x := by
    by_contra hc
    rw [Maze.successors_border m (Or.inl (by omega))] at h
    exact Option.noConfusion h
  have hy : 1 ≤ p.y := by
    by_contra hc
    rw [Maze.successors_border m (Or.inr (by omega))] at h
    exact Option.noConfusion h
  rw [Maze.successors_pos m hx hy] at h
  rcases Option.some.inj h with rfl
  rw [List.mem_filter, mem_cand_iff hx hy, notWallB_iff]

/-- Points in a successful `successors` result are in bounds and `Open`. -/
theorem mem_successors_open {m : Maze} {p : Point} {l : List Point}
    (h : m.successors p = some l) {q : Point} (hq : q ∈ l) :
    q.x < m.width ∧ q.y < m.height ∧ m.get q.x q.y = some GridCell.Path := by
  have h2 := (mem_successors_iff h q).mp hq
  have h3 := h2.2
  unfold Maze.get at h3
  split at h3
  · rename_i hb
    exact ⟨hb.1, hb.2, h2.2⟩
  · exact Option.noConfusion h3

/-! ## C10, C3, C5: grid construction and access -/

/-- C10: the `set` operation does not bounds-check `x` against the width:
on the 4×4 grid, `set(4, 0, Path)` silently writes the distinct in-bounds
cell `(0, 1)` (row-major index `0*4+4 = 4`) instead of failing, and the
queried cell `(4, 0)` itself still reads as absent. -/
theorem c10_set_aliasing :
    ((Maze.new 4 4).set 4 0 GridCell.Path).get 0 1 = some GridCell.Path ∧
    ((Maze.new 4 4).set 4 0 GridCell.Path).get 4 0 = none ∧
    (Maze.new 4 4).get 0 1 = some GridCell.Wall := by
  decide

/-- C3 (counterexample): `Grid.new(0, 5)` does not fail — there is no
`InvalidDimensions` error anywhere in the code. The caller receives a fully
built grid with width 0, height 5, and an empty (0 = 0*5 cells) vector. -/
theorem c3_counterexample :
    Maze.new 0 5 = { width := 0, height := 5, cells := [] } := by
  decide

/-- C3 (amended): construction never fails; for every requested pair of
dimensions — zero or not — the caller receives a grid with exactly
`width * height` cells, all `Wall`. -/
theorem c3_amended (width height : Nat) :
    (Maze.new width height).cells.length = width * height ∧
    (Maze.new width height).cells.all (fun c => c == GridCell.Wall) = true := by
  constructor
  · simp [Maze.new]
  · simp only [Maze.new, List.all_eq_true, List.mem_replicate]
    intro c hc
    simp [hc.2]

/-- C5: `get` returns the absent value for every out-of-bounds coordinate
on every grid, and the stored cell state (the row-major entry at
`y*width + x`) for every in-bounds coordinate of a well-formed grid
(`|cells| = width*height`, which holds for every grid the code builds). -/
theorem c5_get_spec (m : Maze) (x y : Nat) :
    (m.width ≤ x ∨ m.height ≤ y → m.get x y = none) ∧
    (m.cells.length = m.width * m.height → x < m.width → y < m.height →
      ∃ hi : m.index x y < m.cells.length,
        m.get x y = some (m.cells.get ⟨m.index x y, hi⟩)) := by
  constructor
  · intro h
    unfold Maze.get
    rw [if_neg (by omega)]
  · intro hlen hx hy
    have hi : m.index x y < m.cells.length := by
      unfold Maze.index
      rw [hlen]
      calc y * m.width + x < y * m.width + m.width := by omega
        _ = (y + 1) * m.width := by ring
        _ ≤ m.height * m.width := Nat.mul_le_mul_right _ (by omega)
        _ = m.width * m.height := Nat.mul_comm _ _
    refine ⟨hi, ?_⟩
    unfold Maze.get
    rw [if_pos ⟨hx, hy⟩, List.getElem?_eq_getElem hi]
    simp

/-- Witness for C5 at concrete inputs: out of bounds on a 2×2 grid, and the
stored `Wall` at `(1, 0)`. -/
theorem c5_get_spec_witness :
    (Maze.new 2 2).get 5 0 = none ∧
    ∃ hi : (Maze.new 2 2).index 1 0 < (Maze.new 2 2).cells.length,
      (Maze.new 2 2).get 1 0 =
        some ((Maze.new 2 2).cells.get ⟨(Maze.new 2 2).index 1 0, hi⟩) :=
  ⟨(c5_get_spec (Maze.new 2 2) 5 0).1 (by decide),
   (c5_get_spec (Maze.new 2 2) 1 0).2 (by decide) (by decide) (by decide)⟩

/-! ## C2: the successors query -/

/-- C2 (counterexample): at the boundary point `(0, 0)` — even with an
`Open` in-bounds axis neighbor `(1, 0)` — `successors` does not return the
neighbor list: `Point::to(start, -1, 0)` panics (`expect_throw`), modelled
by `none`. -/
theorem c2_counterexample :
    ((Maze.new 3 3).set 1 0 GridCell.Path).get 1 0 = some GridCell.Path ∧
    ((Maze.new 3 3).set 1 0 GridCell.Path).successors ⟨0, 0⟩ = none := by
  decide

/-- C2 (amended): for every point with both coordinates at least 1,
`successors` returns (without panicking) exactly the coordinates at
Manhattan distance 1 in the four axis directions that are in bounds and
`Open`; on points with `x = 0` or `y = 0` the call panics instead. -/
theorem c2_amended (m : Maze) (p : Point) (hx : 1 ≤ p.x) (hy : 1 ≤ p.y) :
    ∃ l, m.successors p = some l ∧ l.Nodup ∧
      ∀ q : Point, q ∈ l ↔ Nat.dist p.x q.x + Nat.dist p.y q.y = 1 ∧
        m.get q.x q.y = some GridCell.Path := by
  refine ⟨_, Maze.successors_pos m hx hy, ?_, ?_⟩
  · apply List.Nodup.filter
    simp only [List.nodup_cons, List.mem_cons, List.mem_singleton,
      List.not_mem_nil, or_false, List.nodup_nil, Point.mk.injEq, and_true,
      not_or, not_false_eq_true, true_and, not_and, not_true, not_false_iff]
    omega
  · intro q
    exact mem_successors_iff (Maze.successors_pos m hx hy) q

/-- Witness for C2 (amended) at the point `(1, 1)` of a 3×3 grid with the
cell `(0, 1)` `Open`. -/
theorem c2_amended_witness :
    ∃ l, ((Maze.new 3 3).set 0 1 GridCell.Path).successors ⟨1, 1⟩ = some l ∧
      l.Nodup ∧
      ∀ q : Point, q ∈ l ↔ Nat.dist 1 q.x + Nat.dist 1 q.y = 1 ∧
        ((Maze.new 3 3).set 0 1 GridCell.Path).get q.x q.y =
          some GridCell.Path :=
  c2_amended ((Maze.new 3 3).set 0 1 GridCell.Path) ⟨1, 1⟩ (by decide)
    (by decide)

/-! ## The generation loop -/

/-- Full characterization of one `neighborStep`. -/
theorem mem_neighborStep_iff {m : Maze} {p : Point} {acc : List Point}
    {d : Int × Int} {q : Point} :
    q ∈ neighborStep m p acc d ↔
      q ∈ acc ∨
      (0 ≤ (p.x : Int) + d.1 ∧ 0 ≤ (p.y : Int) + d.2 ∧
        ((p.x : Int) + d.1).toNat < m.width ∧
        ((p.y : Int) + d.2).toNat < m.height ∧
        q = ⟨((p.x : Int) + d.1).toNat, ((p.y : Int) + d.2).toNat⟩) := by
  unfold neighborStep
  simp only []
  split
  · rename_i hc
    simp only [List.mem_append, List.mem_singleton]
    constructor
    · rintro (h | h)
      · exact Or.inl h
      · exact Or.inr ⟨hc.1, hc.2.1, hc.2.2.1, hc.2.2.2, h⟩
    · rintro (h | h)
      · exact Or.inl h
      · exact Or.inr h.2.2.2.2
  · rename_i hc
    constructor
    · exact Or.inl
    · rintro (h | h)
      · exact h
      · exact absurd ⟨h.1, h.2.1, h.2.2.1, h.2.2.2.1⟩ hc

/-- Full characterization of the doubled-step adjacency: a neighbor is in
bounds and offset by exactly 2 in exactly one axis direction. -/
theorem mem_neighbors_char {m : Maze} {p q : Point} (h : q ∈ m.neighbors p) :
    (q.x < m.width ∧ q.y < m.height) ∧
    ((q.x = p.x + 2 ∧ q.y = p.y) ∨ (p.x = q.x + 2 ∧ q.y = p.y) ∨
     (q.x = p.x ∧ q.y = p.y + 2) ∨ (q.x = p.x ∧ p.y = q.y + 2)) := by
  unfold Maze.neighbors at h
  simp only [List.foldl_cons, List.foldl_nil] at h
  rw [mem_neighborStep_iff] at h
  rcases h with h | h
  · rw [mem_neighborStep_iff] at h
    rcases h with h | h
    · rw [mem_neighborStep_iff] at h
      rcases h with h | h
      · rw [mem_neighborStep_iff] at h
        rcases h with h | h
        · exact absurd h (List.not_mem_nil q)
        · obtain ⟨h1, h2, h3, h4, rfl⟩ := h
          exact ⟨⟨h3, h4⟩, Or.inl (by constructor <;> (dsimp only; omega))⟩
      · obtain ⟨h1, h2, h3, h4, rfl⟩ := h
        exact ⟨⟨h3, h4⟩,
          Or.inr (Or.inl (by constructor <;> (dsimp only; omega)))⟩
    · obtain ⟨h1, h2, h3, h4, rfl⟩ := h
      exact ⟨⟨h3, h4⟩,
        Or.inr (Or.inr (Or.inl (by constructor <;> (dsimp only; omega))))⟩
  · obtain ⟨h1, h2, h3, h4, rfl⟩ := h
    exact ⟨⟨h3, h4⟩,
      Or.inr (Or.inr (Or.inr (by constructor <;> (dsimp only; omega))))⟩

/-- `neighbors` only depends on the grid dimensions. -/
theorem neighbors_congr {m m' : Maze} (hw : m.width = m'.width)
    (hh : m.height = m'.height) (p : Point) :
    m.neighbors p = m'.neighbors p := by
  unfold Maze.neighbors neighborStep
  rw [hw, hh]

/-- The generation loop ends exactly when the stack is empty. -/
theorem genStep_none_iff (rng : Nat → Nat) (st : GenState) :
    genStep rng st = none ↔ st.stack = [] := by
  unfold genStep
  cases hst : st.stack with
  | nil => simp
  | cons current rest =>
    simp only []
    split <;> simp

/-- Shape of one generation step: either a backtracking pop (every doubled
neighbor of the stack top is visited; maze and visited unchanged), or a
carving step (an unvisited doubled neighbor is opened together with the
midpoint wall, pushed, and marked visited). -/
theorem genStep_shape {rng : Nat → Nat} {st st' : GenState}
    (h : genStep rng st = some st') :
    (st'.maze = st.maze ∧ st'.visited = st.visited ∧
      st'.stack = st.stack.tail ∧
      ∃ current, st.stack.head? = some current ∧
        ∀ n ∈ st.maze.neighbors current, n ∈ st.visited) ∨
    (∃ current next,
      st.stack.head? = some current ∧
      next ∈ st.maze.neighbors current ∧ next ∉ st.visited ∧
      st'.maze = (st.maze.set ((current.x + next.x) / 2)
          ((current.y + next.y) / 2) GridCell.Path).set next.x next.y
          GridCell.Path ∧
      st'.stack = next :: st.stack ∧ st'.visited = next :: st.visited) := by
  unfold genStep at h
  rcases hst : st.stack with _ | ⟨current, rest⟩
  · rw [hst] at h
    exact Option.noConfusion h
  · rw [hst] at h
    simp only [] at h
    split at h
    · rename_i hemp
      rcases Option.some.inj h with rfl
      left
      refine ⟨rfl, rfl, rfl, current, rfl, ?_⟩
      intro n hn
      by_contra hnv
      have hmem : n ∈ (st.maze.neighbors current).filter
          (fun n => decide (n ∉ st.visited)) := by
        rw [List.mem_filter]
        exact ⟨hn, by simpa using hnv⟩
      rw [hemp] at hmem
      exact List.not_mem_nil n hmem
    · rename_i hemp
      rcases Option.some.inj h with rfl
      right
      have hnext : ((st.maze.neighbors current).filter
          (fun n => decide (n ∉ st.visited))).get
            ⟨rng st.k % ((st.maze.neighbors current).filter
              (fun n => decide (n ∉ st.visited))).length,
             Nat.mod_lt _ (List.length_pos.mpr hemp)⟩ ∈
          (st.maze.neighbors current).filter
            (fun n => decide (n ∉ st.visited)) :=
        List.get_mem _ _ _
      rw [List.mem_filter] at hnext
      exact ⟨current, _, rfl, hnext.1, by simpa using hnext.2, rfl, rfl, rfl⟩

/-- `unvisCard` only depends on the grid dimensions. -/
theorem unvisCard_congr {m m' : Maze} (hw : m.width = m'.width)
    (hh : m.height = m'.height) (vs : List Point) :
    unvisCard m vs = unvisCard m' vs := by
  unfold unvisCard
  rw [hw, hh]

theorem unvisCard_le (m : Maze) (vs : List Point) :
    unvisCard m vs ≤ m.width * m.height := by
  unfold unvisCard
  calc ((allPoints m.width m.height).filter fun p => p ∉ vs).card
      ≤ (allPoints m.width m.height).card := Finset.card_filter_le _ _
    _ ≤ (Finset.range m.width ×ˢ Finset.range m.height).card :=
        Finset.card_image_le
    _ = m.width * m.height := by simp

/-- Marking a fresh in-bounds point visited strictly shrinks the unvisited
count. -/
theorem unvisCard_cons_lt {m : Maze} {vs : List Point} {q : Point}
    (hb : q.x < m.width ∧ q.y < m.height) (hq : q ∉ vs) :
    unvisCard m (q :: vs) < unvisCard m vs := by
  unfold unvisCard
  apply Finset.card_lt_card
  constructor
  · intro p hp
    simp only [Finset.mem_filter, List.mem_cons, not_or] at hp ⊢
    exact ⟨hp.1, hp.2.2⟩
  · intro hsub
    have hq' : q ∈ (allPoints m.width m.height).filter fun p => p ∉ vs := by
      simp only [Finset.mem_filter, mem_allPoints]
      exact ⟨hb, hq⟩
    have hmem := hsub hq'
    simp only [Finset.mem_filter, List.mem_cons, not_or] at hmem
    exact hmem.2.1 trivial

/-- Every generation step strictly decreases the loop measure. -/
theorem genMeasure_decreases {rng : Nat → Nat} {st st' : GenState}
    (h : genStep rng st = some st') : genMeasure st' < genMeasure st := by
  rcases genStep_shape h with
    ⟨hm, hv, hs, current, hhead, _⟩ | ⟨current, next, hhead, hn, hnv, hm, hs, hv⟩
  · unfold genMeasure
    rw [hm, hv, hs]
    rcases hst : st.stack with _ | ⟨c, rest⟩
    · rw [hst] at hhead
      exact Option.noConfusion hhead
    · simp [hst]
  · unfold genMeasure
    have hdw : st'.maze.width = st.maze.width := by rw [hm]; rfl
    have hdh : st'.maze.height = st.maze.height := by rw [hm]; rfl
    rw [unvisCard_congr hdw hdh, hv, hs]
    have hb := Maze.mem_neighbors_bounds hn
    have hlt := unvisCard_cons_lt hb hnv
    rcases hst : st.stack with _ | ⟨c, rest⟩
    · rw [hst] at hhead
      exact Option.noConfusion hhead
    · simp only [hst, List.length_cons]
      omega

/-- With fuel at least the measure, the loop reaches the empty stack. -/
theorem genLoop_empty {rng : Nat → Nat} :
    ∀ (fuel : Nat) (st : GenState), genMeasure st ≤ fuel →
      (genLoopF rng fuel st).stack = [] := by
  intro fuel
  induction fuel with
  | zero =>
    intro st hm
    unfold genMeasure at hm
    unfold genLoopF
    cases hst : st.stack with
    | nil => rfl
    | cons c rest =>
      rw [hst] at hm
      simp at hm
  | succ fuel ih =>
    intro st hm
    unfold genLoopF
    cases h : genStep rng st with
    | none => exact (genStep_none_iff rng st).mp h
    | some st' =>
      apply ih
      have := genMeasure_decreases h
      omega

/-- The generator invariant holds initially. -/
theorem genInv_init (m : Maze) (s : Point) : GenInv m s (genInit m s) := by
  unfold GenInv genInit
  refine ⟨rfl, rfl, List.nodup_singleton s, List.nodup_singleton s, ?_,
    List.mem_singleton_self s, ?_, ?_⟩
  · intro p hp
    exact hp
  · intro v hv
    exact Or.inl hv
  · intro v hv
    rcases List.mem_singleton.mp hv with rfl
    exact Reach2.refl

/-- The generator invariant is preserved by every step. -/
theorem genInv_step {m : Maze} {s : Point} {rng : Nat → Nat}
    {st st' : GenState} (hI : GenInv m s st)
    (h : genStep rng st = some st') : GenInv m s st' := by
  obtain ⟨hw, hh, hsn, hvn, hsv, hsm, hcl, hre⟩ := hI
  rcases genStep_shape h with
    ⟨hm, hv, hs, current, hhead, hclosed⟩ |
    ⟨current, next, hhead, hn, hnv, hm, hs, hv⟩
  · rcases hst : st.stack with _ | ⟨cur, rest⟩
    · rw [hst] at hhead
      exact Option.noConfusion hhead
    rw [hst] at hhead
    have hc : cur = current := Option.some.inj (by simpa using hhead)
    subst hc
    have hneigh : st.maze.neighbors cur = m.neighbors cur :=
      neighbors_congr hw hh cur
    refine ⟨by rw [hm]; exact hw, by rw [hm]; exact hh, ?_, by rw [hv]; exact hvn,
      ?_, by rw [hv]; exact hsm, ?_, by rw [hv]; exact hre⟩
    · rw [hs, hst]
      exact (List.nodup_cons.mp (hst ▸ hsn)).2
    · intro p hp
      rw [hv]
      exact hsv p (by rw [hst]; rw [hs, hst] at hp; exact List.mem_cons_of_mem _ hp)
    · intro v hv'
      rw [hv] at hv' ⊢
      rcases hcl v hv' with hin | hcl'
      · rw [hst] at hin
        rcases List.mem_cons.mp hin with rfl | hin
        · right
          intro n hn'
          exact hclosed n (by rw [hneigh]; exact hn')
        · left
          rw [hs, hst]
          exact hin
      · exact Or.inr hcl'
  · have hneigh : st.maze.neighbors current = m.neighbors current :=
      neighbors_congr hw hh current
    have hcur_stack : current ∈ st.stack := by
      rcases hst : st.stack with _ | ⟨c, rest⟩
      · rw [hst] at hhead
        exact Option.noConfusion hhead
      · rw [hst] at hhead
        have hc : c = current := Option.some.inj (by simpa using hhead)
        rw [← hc]
        exact List.mem_cons_self _ _
    have hnext_stack : next ∉ st.stack := fun hmem => hnv (hsv next hmem)
    refine ⟨?_, ?_, ?_, ?_, ?_, ?_, ?_, ?_⟩
    · rw [hm, Maze.width_set, Maze.width_set]
      exact hw
    · rw [hm, Maze.height_set, Maze.height_set]
      exact hh
    · rw [hs]
      exact List.nodup_cons.mpr ⟨hnext_stack, hsn⟩
    · rw [hv]
      exact List.nodup_cons.mpr ⟨hnv, hvn⟩
    · intro p hp
      rw [hs] at hp
      rw [hv]
      rcases List.mem_cons.mp hp with rfl | hp
      · exact List.mem_cons_self _ _
      · exact List.mem_cons_of_mem _ (hsv p hp)
    · rw [hv]
      exact List.mem_cons_of_mem _ hsm
    · intro v hv'
      rw [hv] at hv'
      rcases List.mem_cons.mp hv' with rfl | hv'
      · left
        rw [hs]
        exact List.mem_cons_self _ _
      · rcases hcl v hv' with hin | hcl'
        · left
          rw [hs]
          exact List.mem_cons_of_mem _ hin
        · right
          intro n hn'
          rw [hv]
          exact List.mem_cons_of_mem _ (hcl' n hn')
    · intro v hv'
      rw [hv] at hv'
      rcases List.mem_cons.mp hv' with rfl | hv'
      · exact Reach2.step (hre current (hsv current hcur_stack))
          (by rw [← hneigh]; exact hn)
      · exact hre v hv'

/-- The generator invariant holds after any amount of fuel. -/
theorem genInv_loop {m : Maze} {s : Point} {rng : Nat → Nat} :
    ∀ (fuel : Nat) (st : GenState), GenInv m s st →
      GenInv m s (genLoopF rng fuel st) := by
  intro fuel
  induction fuel with
  | zero => intro st hI; exact hI
  | succ fuel ih =>
    intro st hI
    unfold genLoopF
    cases h : genStep rng st with
    | none => exact hI
    | some st' => exact ih st' (genInv_step hI h)

/-- One generation step never turns an `Open` cell back into `Wall`. -/
theorem genStep_mono_path {rng : Nat → Nat} {st st' : GenState}
    (h : genStep rng st = some st') {x y : Nat}
    (hp : st.maze.get x y = some GridCell.Path) :
    st'.maze.get x y = some GridCell.Path := by
  rcases genStep_shape h with ⟨hm, _⟩ | ⟨current, next, _, _, _, hm, _, _⟩
  · rw [hm]
    exact hp
  · rw [hm]
    rcases Maze.get_set_path_or (st.maze.set ((current.x + next.x) / 2)
        ((current.y + next.y) / 2) GridCell.Path) next.x next.y x y with
      h2 | h2
    · rw [h2]
      rcases Maze.get_set_path_or st.maze ((current.x + next.x) / 2)
          ((current.y + next.y) / 2) x y with h3 | h3
      · rw [h3]
        exact hp
      · exact h3
    · exact h2

/-- The whole generation run never turns an `Open` cell back into `Wall`. -/
theorem genLoop_mono_path {rng : Nat → Nat} :
    ∀ (fuel : Nat) (st : GenState) {x y : Nat},
      st.maze.get x y = some GridCell.Path →
      (genLoopF rng fuel st).maze.get x y = some GridCell.Path := by
  intro fuel
  induction fuel with
  | zero => intro st x y hp; exact hp
  | succ fuel ih =>
    intro st x y hp
    unfold genLoopF
    cases h : genStep rng st with
    | none => exact hp
    | some st' => exact ih st' (genStep_mono_path h hp)

/-- Doubled-step reachable points from an in-bounds start are rooms of the
start's sublattice. -/
theorem reach2_room {m : Maze} {s p : Point}
    (hs : s.x < m.width ∧ s.y < m.height) (h : Reach2 m s p) :
    roomB m s p = true := by
  induction h with
  | refl =>
    simp only [roomB, decide_eq_true_eq]
    refine ⟨hs.1, hs.2, ?_, ?_⟩ <;> trivial
  | step hr hn ih =>
    have hc := mem_neighbors_char hn
    simp only [roomB, decide_eq_true_eq] at ih ⊢
    rcases hc with ⟨⟨hbx, hby⟩, hd⟩
    refine ⟨hbx, hby, ?_, ?_⟩ <;> omega

set_option maxHeartbeats 1000000 in
/-- The carved midpoint wall between two doubled-step-adjacent rooms is a
writable cell and lies in bounds. -/
theorem carve_wall_writable {m : Maze} {s current next : Point}
    (hcur : roomB m s current = true) (hnext : roomB m s next = true)
    (hadj : (next.x = current.x + 2 ∧ next.y = current.y) ∨
      (current.x = next.x + 2 ∧ next.y = current.y) ∨
      (next.x = current.x ∧ next.y = current.y + 2) ∨
      (next.x = current.x ∧ current.y = next.y + 2)) :
    writableB m s ⟨(current.x + next.x) / 2, (current.y + next.y) / 2⟩ =
        true ∧
      (current.x + next.x) / 2 < m.width ∧
      (current.y + next.y) / 2 < m.height := by
  simp only [roomB, decide_eq_true_eq] at hcur hnext
  refine ⟨?_, ?_, ?_⟩
  · rcases hadj with ⟨h1, h2⟩ | ⟨h1, h2⟩ | ⟨h1, h2⟩ | ⟨h1, h2⟩ <;>
      · simp only [writableB, midB, roomB, Bool.or_eq_true, Bool.and_eq_true,
          decide_eq_true_eq]
        omega
  · omega
  · omega

/-- A step of the generator (from an in-bounds start) leaves every
non-writable cell untouched. -/
theorem genStep_preserve_cell {m : Maze} {s : Point} {rng : Nat → Nat}
    {st st' : GenState} (hI : GenInv m s st)
    (hs : s.x < m.width ∧ s.y < m.height)
    (h : genStep rng st = some st') {x y : Nat}
    (hnw : writableB m s ⟨x, y⟩ = false) :
    st'.maze.get x y = st.maze.get x y := by
  obtain ⟨hw, hh, _, _, hsv, _, _, hre⟩ := hI
  rcases genStep_shape h with ⟨hm, _⟩ |
    ⟨current, next, hhead, hn, hnv, hm, _, _⟩
  · rw [hm]
  · have hcur_vis : current ∈ st.visited :=
      hsv current (List.mem_of_mem_head? (by rw [hhead]; rfl))
    have hcur_room : roomB m s current = true :=
      reach2_room hs (hre current hcur_vis)
    have hc := mem_neighbors_char hn
    rw [hw] at hc
    rw [hh] at hc
    have hnext_room : roomB m s next = true := by
      simp only [roomB, decide_eq_true_eq] at hcur_room ⊢
      rcases hc with ⟨⟨hbx, hby⟩, hd⟩
      refine ⟨hbx, hby, ?_, ?_⟩ <;> omega
    have hwall := carve_wall_writable hcur_room hnext_room hc.2
    have hnext_b : next.x < m.width ∧ next.y < m.height := hc.1
    rw [hm]
    have hne_next : ¬(x = next.x ∧ y = next.y) := by
      rintro ⟨rfl, rfl⟩
      have hnw' : writableB m s next = false := hnw
      unfold writableB at hnw'
      rw [hnext_room] at hnw'
      simp at hnw'
    have hne_wall : ¬(x = (current.x + next.x) / 2 ∧
        y = (current.y + next.y) / 2) := by
      rintro ⟨rfl, rfl⟩
      rw [hwall.1] at hnw
      exact Bool.noConfusion hnw
    rw [Maze.get_set_of_ne _ x y _ (by rw [Maze.width_set, hw]; exact hc.1.1)
      (by rw [Maze.height_set, hh]; exact hc.1.2) hne_next]
    rw [Maze.get_set_of_ne _ x y _ (by rw [hw]; exact hwall.2.1)
      (by rw [hh]; exact hwall.2.2) hne_wall]

/-- The whole generation run (from an in-bounds start) leaves every
non-writable cell untouched. -/
theorem genLoop_preserve_cell {m : Maze} {s : Point} {rng : Nat → Nat}
    (hs : s.x < m.width ∧ s.y < m.height) {x y : Nat}
    (hnw : writableB m s ⟨x, y⟩ = false) :
    ∀ (fuel : Nat) (st : GenState), GenInv m s st →
      (genLoopF rng fuel st).maze.get x y = st.maze.get x y := by
  intro fuel
  induction fuel with
  | zero => intro st _; rfl
  | succ fuel ih =>
    intro st hI
    unfold genLoopF
    cases h : genStep rng st with
    | none => rfl
    | some st' =>
      rw [ih st' (genInv_step hI h), genStep_preserve_cell hI hs h hnw]

/-- In a grid whose cell vector has exactly `width * height` entries,
every in-bounds coordinate has its flat index inside the vector. -/
theorem Maze.index_lt {m : Maze} {x y : Nat} (hx : x < m.width)
    (hy : y < m.height) (hwf : m.cells.length = m.width * m.height) :
    m.index x y < m.cells.length := by
  unfold Maze.index
  rw [hwf]
  calc y * m.width + x < y * m.width + m.width := by omega
    _ = (y + 1) * m.width := by ring
    _ ≤ m.height * m.width := Nat.mul_le_mul_right _ (by omega)
    _ = m.width * m.height := Nat.mul_comm _ _

/-- An in-range checked write performs exactly the total `Maze.set`. -/
theorem Maze.setChecked_of_lt {m : Maze} {x y : Nat} (c : GridCell)
    (h : m.index x y < m.cells.length) :
    m.setChecked x y c = some (m.set x y c) := by
  unfold Maze.setChecked
  rw [if_pos h]

/-- When both carve writes are in range, the panic-aware carve completes
and computes exactly the two-write state of `genStep`. -/
theorem genCarveP_pos {st : GenState} {current next : Point}
    (h1 : st.maze.index ((current.x + next.x) / 2)
        ((current.y + next.y) / 2) < st.maze.cells.length)
    (h2 : st.maze.index next.x next.y < st.maze.cells.length) :
    genCarveP st current next =
      some (some ⟨(st.maze.set ((current.x + next.x) / 2)
          ((current.y + next.y) / 2) GridCell.Path).set next.x next.y
          GridCell.Path, next :: st.stack, next :: st.visited,
          st.k + 1⟩) := by
  have h2' : (st.maze.set ((current.x + next.x) / 2)
        ((current.y + next.y) / 2) GridCell.Path).index next.x next.y <
      ((st.maze.set ((current.x + next.x) / 2)
        ((current.y + next.y) / 2) GridCell.Path).cells).length := by
    have hidx : (st.maze.set ((current.x + next.x) / 2)
        ((current.y + next.y) / 2) GridCell.Path).index next.x next.y =
        st.maze.index next.x next.y := rfl
    rw [hidx, Maze.length_cells_set]
    exact h2
  unfold genCarveP
  rw [Maze.setChecked_of_lt GridCell.Path h1]
  show ((match (st.maze.set ((current.x + next.x) / 2)
      ((current.y + next.y) / 2) GridCell.Path).setChecked next.x next.y
      GridCell.Path with
    | none => some none
    | some m1 =>
      some (some ⟨m1, next :: st.stack, next :: st.visited, st.k + 1⟩)) :
    Option (Option GenState)) = _
  rw [Maze.setChecked_of_lt GridCell.Path h2']

/-- A completed carve records exactly the two writes and the push. -/
theorem genCarveP_some_shape {st : GenState} {current next : Point}
    {st' : GenState} (h : genCarveP st current next = some (some st')) :
    st' = ⟨(st.maze.set ((current.x + next.x) / 2)
        ((current.y + next.y) / 2) GridCell.Path).set next.x next.y
        GridCell.Path, next :: st.stack, next :: st.visited,
        st.k + 1⟩ := by
  unfold genCarveP at h
  rcases hm : (st.maze.setChecked ((current.x + next.x) / 2)
      ((current.y + next.y) / 2) GridCell.Path).bind
      (fun m1 => m1.setChecked next.x next.y GridCell.Path) with _ | m1
  · rw [hm] at h
    exact Option.noConfusion (Option.some.inj h)
  · rw [hm] at h
    have he := Option.some.inj (Option.some.inj h)
    rcases Option.bind_eq_some.mp hm with ⟨a, ha, hb⟩
    unfold Maze.setChecked at ha hb
    split at ha
    · have ha' := Option.some.inj ha
      split at hb
      · have hb' := Option.some.inj hb
        rw [← he, ← hb', ← ha']
      · exact Option.noConfusion hb
    · exact Option.noConfusion ha

/-- The panic-aware step reports the end of the loop exactly on an empty
stack: a panic is `some none`, never `none`. -/
theorem genStepP_none_iff (rng : Nat → Nat) (st : GenState) :
    genStepP rng st = none ↔ st.stack = [] := by
  unfold genStepP
  cases hst : st.stack with
  | nil => simp
  | cons current rest =>
    simp only []
    split
    · simp
    · unfold genCarveP
      split <;> simp

/-- Shape of a completed panic-aware generation step: either a
backtracking pop (visited unchanged, stack popped) or a carving push of a
fresh unvisited point. -/
theorem genStepP_some_shape {rng : Nat → Nat} {st st' : GenState}
    (h : genStepP rng st = some (some st')) :
    (st'.visited = st.visited ∧ st'.stack = st.stack.tail) ∨
    ∃ nxt, nxt ∉ st.visited ∧ st'.visited = nxt :: st.visited ∧
      st'.stack = nxt :: st.stack := by
  unfold genStepP at h
  rcases hst : st.stack with _ | ⟨current, rest⟩
  · rw [hst] at h
    exact Option.noConfusion h
  · rw [hst] at h
    simp only [] at h
    split at h
    · rename_i hemp
      have he := Option.some.inj (Option.some.inj h)
      left
      rw [← he]
      exact ⟨rfl, rfl⟩
    · rename_i hemp
      have he := genCarveP_some_shape h
      rw [hst] at he
      have hnx : (((st.maze.neighbors current).filter
          (fun n => decide (n ∉ st.visited))).get
            ⟨rng st.k % ((st.maze.neighbors current).filter
              (fun n => decide (n ∉ st.visited))).length,
             Nat.mod_lt _ (List.length_pos.mpr hemp)⟩) ∈
          (st.maze.neighbors current).filter
            (fun n => decide (n ∉ st.visited)) :=
        List.get_mem _ _ _
      rw [List.mem_filter] at hnx
      rw [he]
      exact Or.inr ⟨_, by simpa using hnx.2, rfl, rfl⟩

/-- Bridge from the plain generation step to the panic-aware one: under
the loop invariant for an in-bounds start, on a grid whose cell vector has
exactly `width * height` entries, both carve writes land in range, so the
panic-aware step completes with exactly the plain step's state. -/
theorem genStepP_eq_some {m : Maze} {s : Point} {rng : Nat → Nat}
    {st st' : GenState} (hI : GenInv m s st)
    (hs : s.x < m.width ∧ s.y < m.height)
    (hwf : st.maze.cells.length = st.maze.width * st.maze.height)
    (hG : genStep rng st = some st') :
    genStepP rng st = some (some st') := by
  obtain ⟨hw, hh, _, _, hsv, _, _, hre⟩ := hI
  unfold genStep at hG
  unfold genStepP
  rcases hst : st.stack with _ | ⟨current, rest⟩
  · rw [hst] at hG
    exact Option.noConfusion hG
  · rw [hst] at hG
    simp only [] at hG ⊢
    split at hG
    · rename_i hemp
      rw [dif_pos hemp, ← Option.some.inj hG]
    · rename_i hemp
      rw [dif_neg hemp]
      set nxt := ((st.maze.neighbors current).filter
          (fun n => decide (n ∉ st.visited))).get
            ⟨rng st.k % ((st.maze.neighbors current).filter
              (fun n => decide (n ∉ st.visited))).length,
             Nat.mod_lt _ (List.length_pos.mpr hemp)⟩ with hnxt
      have hcur_vis : current ∈ st.visited :=
        hsv current (by rw [hst]; exact List.mem_cons_self _ _)
      have hcur_room : roomB m s current = true :=
        reach2_room hs (hre current hcur_vis)
      have hcur_b : current.x < st.maze.width ∧
          current.y < st.maze.height := by
        simp only [roomB, decide_eq_true_eq] at hcur_room
        rw [hw, hh]
        exact ⟨hcur_room.1, hcur_room.2.1⟩
      have hnxmem : nxt ∈ (st.maze.neighbors current).filter
          (fun n => decide (n ∉ st.visited)) := by
        rw [hnxt]
        exact List.get_mem _ _ _
      have hnb : nxt.x < st.maze.width ∧ nxt.y < st.maze.height :=
        Maze.mem_neighbors_bounds (List.mem_filter.mp hnxmem).1
      have h1 : st.maze.index ((current.x + nxt.x) / 2)
          ((current.y + nxt.y) / 2) < st.maze.cells.length := by
        refine Maze.index_lt ?_ ?_ hwf <;> omega
      have h2 : st.maze.index nxt.x nxt.y < st.maze.cells.length :=
        Maze.index_lt hnb.1 hnb.2 hwf
      have he := Option.some.inj hG
      rw [genCarveP_pos h1 h2, hst]
      exact congrArg (fun z => some (some z)) he

/-- Every generation step preserves the cell-count well-formedness of the
grid: `List.set` never changes the length. -/
theorem genStep_preserves_wf {rng : Nat → Nat} {st st' : GenState}
    (h : genStep rng st = some st')
    (hwf : st.maze.cells.length = st.maze.width * st.maze.height) :
    st'.maze.cells.length = st'.maze.width * st'.maze.height := by
  rcases genStep_shape h with ⟨hm, _⟩ | ⟨current, next, _, _, _, hm, _, _⟩
  · rw [hm]
    exact hwf
  · rw [hm, Maze.length_cells_set, Maze.length_cells_set, Maze.width_set,
      Maze.width_set, Maze.height_set, Maze.height_set]
    exact hwf

/-- From an in-bounds start on a well-formed grid, the panic-aware
generation loop never panics and computes exactly the plain loop. -/
theorem genLoopP_eq {m : Maze} {s : Point} {rng : Nat → Nat}
    (hs : s.x < m.width ∧ s.y < m.height) :
    ∀ (fuel : Nat) (st : GenState), GenInv m s st →
      st.maze.cells.length = st.maze.width * st.maze.height →
      genLoopP rng fuel st = some (genLoopF rng fuel st) := by
  intro fuel
  induction fuel with
  | zero => intro st _ _; rfl
  | succ fuel ih =>
    intro st hI hwf
    unfold genLoopP genLoopF
    cases hG : genStep rng st with
    | none =>
      rw [(genStepP_none_iff rng st).mpr ((genStep_none_iff rng st).mp hG)]
    | some st' =>
      rw [genStepP_eq_some hI hs hwf hG]
      exact ih st' (genInv_step hI hG) (genStep_preserves_wf hG hwf)

/-! ## C4, C8, C9: the maze generator -/

/-- C4 (counterexample): the generator itself never opens the start cell.
On a 1×1 grid with start `(0, 0)` the run terminates immediately and the
start cell is still `Wall` — were the start opened at initialization it
would be `Open` at the end, since no step ever writes `Wall`. -/
theorem c4_counterexample :
    ((Maze.new 1 1).generate_maze ⟨0, 0⟩ rng0).get 0 0 =
      some GridCell.Wall := by
  decide

/-- C4 (amended): at initialization the generator only pushes the start and
marks it visited — the maze is untouched; it is the caller (`draw_maze`)
that opens the start cell `(1,1)` before invoking generation, and that cell
is still `Open` after generation completes. -/
theorem c4_amended (m : Maze) (s : Point) (size : Nat) (rng : Nat → Nat) :
    (genInit m s).maze = m ∧ s ∈ (genInit m s).visited ∧
    (2 ≤ size → (draw_maze size rng).get 1 1 = some GridCell.Path) := by
  refine ⟨rfl, List.mem_singleton_self s, ?_⟩
  intro hsize
  unfold draw_maze Maze.generate_maze
  apply genLoop_mono_path
  show ((Maze.new size size).set 1 1 GridCell.Path).get 1 1 =
    some GridCell.Path
  unfold Maze.get Maze.set Maze.index Maze.new
  simp only []
  rw [if_pos (by constructor <;> omega)]
  rw [List.getElem?_set_self (by
    rw [List.length_replicate]
    have h2 : 2 * size ≤ size * size := Nat.mul_le_mul_right size hsize
    omega)]

/-- Witness for C4 (amended) at a 2×2 grid. -/
theorem c4_amended_witness :
    (genInit (Maze.new 1 1) ⟨0, 0⟩).maze = Maze.new 1 1 ∧
    (draw_maze 2 rng0).get 1 1 = some GridCell.Path :=
  ⟨(c4_amended (Maze.new 1 1) ⟨0, 0⟩ 2 rng0).1,
   (c4_amended (Maze.new 1 1) ⟨0, 0⟩ 2 rng0).2.2 (by decide)⟩

/-- C8 (counterexample): as stated the claim fails — the algorithm does
not terminate with an empty stack having visited every reachable room for
every start. With the out-of-bounds start `(1, 4)` on a 3×3 grid the very
first carve writes the wall `(1, 3)` at flat index `10` of the 9-cell
vector, so `cells[i] = cell` panics mid-loop (the panic-aware loop returns
`none`) before the doubled-step-reachable room `(1, 2)` is ever
visited. -/
theorem c8_counterexample :
    genLoopP rng0 (genFuel (Maze.new 3 3)) (genInit (Maze.new 3 3) ⟨1, 4⟩) =
      none ∧
    Reach2 (Maze.new 3 3) ⟨1, 4⟩ ⟨1, 2⟩ :=
  ⟨by decide, Reach2.step Reach2.refl (by decide)⟩

/-- C8 (amended): restricted to a grid with `width * height` cells (as
every grid the program builds has) and an in-bounds start, every carve
write stays in range of the cell vector, the loop never panics, and the
claim holds: with fuel `genFuel` the panic-aware loop completes with an
empty stack, i.e. the `while let Some(..) = stack.back()` loop has ended;
the final visited set is duplicate-free and contains every point
doubled-step reachable from the start; at every cut point the stack and
the visited set are duplicate-free (each coordinate is pushed at most
once: pushes happen exactly when the pushed point enters the visited set);
and every completed step either pops the stack leaving the visited set
unchanged, or pushes a fresh unvisited point while strictly growing the
visited set. -/
theorem c8_amended (m : Maze) (s : Point) (rng : Nat → Nat)
    (hwf : m.cells.length = m.width * m.height)
    (hsx : s.x < m.width) (hsy : s.y < m.height) :
    ((∃ σ : GenState,
      genLoopP rng (genFuel m) (genInit m s) = some σ ∧
      σ.stack = [] ∧ σ.visited.Nodup ∧
      ∀ p : Point, Reach2 m s p → p ∈ σ.visited) ∧
     ∀ fuel : Nat, ∃ σ : GenState,
      genLoopP rng fuel (genInit m s) = some σ ∧
      σ.stack.Nodup ∧ σ.visited.Nodup) ∧
    ∀ st st' : GenState, genStepP rng st = some (some st') →
      (st'.visited = st.visited ∧ st'.stack = st.stack.tail) ∨
      ∃ nxt, nxt ∉ st.visited ∧ st'.visited = nxt :: st.visited ∧
        st'.stack = nxt :: st.stack := by
  have heq : ∀ fuel : Nat, genLoopP rng fuel (genInit m s) =
      some (genLoopF rng fuel (genInit m s)) := fun fuel =>
    genLoopP_eq ⟨hsx, hsy⟩ fuel (genInit m s) (genInv_init m s) hwf
  have hterm : (genLoopF rng (genFuel m) (genInit m s)).stack = [] := by
    apply genLoop_empty
    unfold genMeasure genFuel genInit
    have hle := unvisCard_le m [s]
    simp only [List.length_singleton]
    omega
  have hInv := @genInv_loop m s rng (genFuel m) (genInit m s)
    (genInv_init m s)
  refine ⟨⟨⟨genLoopF rng (genFuel m) (genInit m s), heq _, hterm,
    hInv.2.2.2.1, ?_⟩, ?_⟩, ?_⟩
  · obtain ⟨_, _, _, _, _, hsm, hcl, _⟩ := hInv
    intro p hp
    induction hp with
    | refl => exact hsm
    | step hr hn ih =>
      rcases hcl _ ih with hin | hcl'
      · rw [hterm] at hin
        exact absurd hin (List.not_mem_nil _)
      · exact hcl' _ hn
  · intro fuel
    have hI := @genInv_loop m s rng fuel (genInit m s) (genInv_init m s)
    exact ⟨genLoopF rng fuel (genInit m s), heq fuel, hI.2.2.1,
      hI.2.2.2.1⟩
  · intro st st' h
    exact genStepP_some_shape h

/-- Witness for C8 (amended) at the concrete instance: the 3×3 grid with
the in-bounds start `(1, 1)` and the zero randomness oracle. -/
theorem c8_amended_witness :
    ((Maze.new 3 3).cells.length =
        (Maze.new 3 3).width * (Maze.new 3 3).height ∧
     (⟨1, 1⟩ : Point).x < (Maze.new 3 3).width ∧
     (⟨1, 1⟩ : Point).y < (Maze.new 3 3).height) ∧
    ((∃ σ : GenState,
      genLoopP rng0 (genFuel (Maze.new 3 3))
          (genInit (Maze.new 3 3) ⟨1, 1⟩) = some σ ∧
      σ.stack = [] ∧ σ.visited.Nodup ∧
      ∀ p : Point, Reach2 (Maze.new 3 3) ⟨1, 1⟩ p → p ∈ σ.visited) ∧
     ∀ fuel : Nat, ∃ σ : GenState,
      genLoopP rng0 fuel (genInit (Maze.new 3 3) ⟨1, 1⟩) = some σ ∧
      σ.stack.Nodup ∧ σ.visited.Nodup) ∧
    ∀ st st' : GenState, genStepP rng0 st = some (some st') →
      (st'.visited = st.visited ∧ st'.stack = st.stack.tail) ∨
      ∃ nxt, nxt ∉ st.visited ∧ st'.visited = nxt :: st.visited ∧
        st'.stack = nxt :: st.stack :=
  have h := c8_amended (Maze.new 3 3) ⟨1, 1⟩ rng0 (by decide) (by decide)
    (by decide)
  ⟨⟨by decide, by decide, by decide⟩, h.1, h.2⟩

/-- C9 (counterexample): for the out-of-bounds start `(4, 1)` on a 3×3
grid, the unchecked `set` aliases the wall write `set(3, 1, Path)` to the
cell `(0, 2)` — a cell that is neither a room of the start's sublattice nor
a midpoint between two rooms, yet it does not keep its initial `Wall`
state. -/
theorem c9_counterexample :
    (Maze.new 3 3).get 0 2 = some GridCell.Wall ∧
    writableB (Maze.new 3 3) ⟨4, 1⟩ ⟨0, 2⟩ = false ∧
    ((Maze.new 3 3).generate_maze ⟨4, 1⟩ rng0).get 0 2 =
      some GridCell.Path := by
  decide

/-- C9 (amended): generation only ever writes the `Open` state — every cell
`Open` before is `Open` after, for every grid, start and oracle; and when
the start is in bounds, every cell that is neither a room of the start's
doubled-step sublattice nor a midpoint between two doubled-step-adjacent
rooms keeps its initial state (for out-of-bounds starts the unchecked `set`
can alias a wall write onto such a cell). -/
theorem c9_amended (m : Maze) (s : Point) (rng : Nat → Nat) (x y : Nat) :
    (m.get x y = some GridCell.Path →
      (m.generate_maze s rng).get x y = some GridCell.Path) ∧
    (s.x < m.width → s.y < m.height → writableB m s ⟨x, y⟩ = false →
      (m.generate_maze s rng).get x y = m.get x y) := by
  constructor
  · intro hp
    unfold Maze.generate_maze
    exact genLoop_mono_path _ _ hp
  · intro hsx hsy hnw
    unfold Maze.generate_maze
    exact genLoop_preserve_cell ⟨hsx, hsy⟩ hnw _ _ (genInv_init m s)

/-- Witness for C9 (amended): the opened start cell of a 3×3 run stays
`Open`, and the never-written corner `(0, 0)` keeps its value. -/
theorem c9_amended_witness :
    (((Maze.new 3 3).set 1 1 GridCell.Path).generate_maze ⟨1, 1⟩ rng0).get 1 1
      = some GridCell.Path ∧
    ((Maze.new 3 3).generate_maze ⟨1, 1⟩ rng0).get 0 0 =
      (Maze.new 3 3).get 0 0 :=
  ⟨(c9_amended ((Maze.new 3 3).set 1 1 GridCell.Path) ⟨1, 1⟩ rng0 1 1).1
      (by decide),
   (c9_amended (Maze.new 3 3) ⟨1, 1⟩ rng0 0 0).2 (by decide) (by decide)
      (by decide)⟩

/-! ## The traversal edge relation and routes -/

theorem edgeB_iff {m : Maze} {a b : Point} :
    edgeB m a b = true ↔ ∃ l, m.successors a = some l ∧ b ∈ l := by
  unfold edgeB
  cases h : m.successors a <;> simp

theorem edgeB_props {m : Maze} {a b : Point} (h : edgeB m a b = true) :
    Nat.dist a.x b.x + Nat.dist a.y b.y = 1 ∧
    m.get b.x b.y = some GridCell.Path := by
  rcases edgeB_iff.mp h with ⟨l, hl, hb⟩
  exact (mem_successors_iff hl b).mp hb

theorem edgeB_of {m : Maze} {a b : Point} (hx : 1 ≤ a.x) (hy : 1 ≤ a.y)
    (hd : Nat.dist a.x b.x + Nat.dist a.y b.y = 1)
    (hb : m.get b.x b.y = some GridCell.Path) : edgeB m a b = true := by
  rw [edgeB_iff]
  exact ⟨_, Maze.successors_pos m hx hy,
    (mem_successors_iff (Maze.successors_pos m hx hy) b).mpr ⟨hd, hb⟩⟩

/-- A cell reported by `get` lies in bounds. -/
theorem get_some_bounds {m : Maze} {x y : Nat} {c : GridCell}
    (h : m.get x y = some c) : x < m.width ∧ y < m.height := by
  unfold Maze.get at h
  split at h
  · rename_i hb
    exact hb
  · exact Option.noConfusion h

/-- The meaning of `borderClearB`. -/
theorem borderClear_spec {m : Maze} (h : borderClearB m = true) :
    ∀ x y : Nat, m.get x y = some GridCell.Path → 1 ≤ x ∧ 1 ≤ y := by
  intro x y hxy
  have hb := get_some_bounds hxy
  unfold borderClearB at h
  rw [List.all_eq_true] at h
  have hx := h x (List.mem_range.mpr hb.1)
  rw [List.all_eq_true] at hx
  have hy := hx y (List.mem_range.mpr hb.2)
  rw [decide_eq_true_eq] at hy
  exact hy hxy

/-- The first cell of an Open route is `Open`. -/
theorem openRoute_head {m : Maze} :
    ∀ {b : Point} {rest : List Point},
      openRouteB m (b :: rest) = true →
      m.get b.x b.y = some GridCell.Path := by
  intro b rest h
  cases rest with
  | nil =>
    unfold openRouteB openCellB at h
    exact of_decide_eq_true h
  | cons c rest2 =>
    unfold openRouteB openCellB at h
    rw [Bool.and_eq_true] at h
    rcases h with ⟨h1, _⟩
    rw [Bool.and_eq_true] at h1
    rcases h1 with ⟨h2, _⟩
    exact of_decide_eq_true h2

/-- Under a border-clear grid, every Open route is an edge route. -/
theorem openRoute_to_edgeRoute {m : Maze} (hbc : borderClearB m = true) :
    ∀ l : List Point, openRouteB m l = true → edgeRouteB m l = true := by
  intro l
  induction l with
  | nil => intro h; exact absurd h (by unfold openRouteB; simp)
  | cons a rest ih =>
    cases rest with
    | nil => intro _; rfl
    | cons b rest2 =>
      intro h
      unfold openRouteB at h
      rw [Bool.and_eq_true] at h
      rcases h with ⟨h1, hrest⟩
      rw [Bool.and_eq_true] at h1
      rcases h1 with ⟨hopen, hadj⟩
      unfold openCellB at hopen
      rw [decide_eq_true_eq] at hopen
      unfold adjB at hadj
      rw [decide_eq_true_eq] at hadj
      have hb_open := openRoute_head hrest
      have hpos := borderClear_spec hbc a.x a.y hopen
      show (edgeB m a b && edgeRouteB m (b :: rest2)) = true
      rw [Bool.and_eq_true]
      exact ⟨edgeB_of hpos.1 hpos.2 hadj hb_open, ih hrest⟩

/-- An edge route with an `Open` first cell is an Open route. -/
theorem edgeRoute_to_openRoute {m : Maze} :
    ∀ l : List Point, edgeRouteB m l = true →
      (∀ b : Point, l.head? = some b → m.get b.x b.y = some GridCell.Path) →
      openRouteB m l = true := by
  intro l
  induction l with
  | nil => intro h _; exact absurd h (by unfold edgeRouteB; simp)
  | cons a rest ih =>
    cases rest with
    | nil =>
      intro _ hh
      unfold openRouteB openCellB
      rw [decide_eq_true_eq]
      exact hh a rfl
    | cons b rest2 =>
      intro h hh
      have h' : (edgeB m a b && edgeRouteB m (b :: rest2)) = true := h
      rw [Bool.and_eq_true] at h'
      rcases h' with ⟨he, hrest⟩
      have hp := edgeB_props he
      show (openCellB m a && adjB a b && openRouteB m (b :: rest2)) = true
      rw [Bool.and_eq_true, Bool.and_eq_true]
      refine ⟨⟨?_, ?_⟩, ih hrest ?_⟩
      · unfold openCellB
        rw [decide_eq_true_eq]
        exact hh a rfl
      · unfold adjB
        rw [decide_eq_true_eq]
        exact hp.1
      · intro c hc
        rcases Option.some.inj hc with rfl
        exact hp.2

/-- Every edge route is a chain of unit steps into `Open` cells. -/
theorem edgeRoute_chain {m : Maze} :
    ∀ l : List Point, edgeRouteB m l = true →
      l.Chain' (fun a b => Nat.dist a.x b.x + Nat.dist a.y b.y = 1 ∧
        m.get b.x b.y = some GridCell.Path) := by
  intro l
  induction l with
  | nil => intro _; exact List.chain'_nil
  | cons a rest ih =>
    cases rest with
    | nil => intro _; simp
    | cons b rest2 =>
      intro h
      have h' : (edgeB m a b && edgeRouteB m (b :: rest2)) = true := h
      rw [Bool.and_eq_true] at h'
      rcases h' with ⟨he, hrest⟩
      exact List.chain'_cons.mpr ⟨edgeB_props he, ih hrest⟩

/-- Appending one more edge to an edge route. -/
theorem edgeRoute_append_edge {m : Maze} :
    ∀ (l : List Point) (a n : Point), edgeRouteB m l = true →
      l.getLast? = some a → edgeB m a n = true →
      edgeRouteB m (l ++ [n]) = true := by
  intro l
  induction l with
  | nil => intro a n _ hl; exact absurd hl (by simp)
  | cons c rest ih =>
    intro a n h hl he
    cases rest with
    | nil =>
      have hca : c = a := Option.some.inj hl
      subst hca
      show (edgeB m c n && edgeRouteB m [n]) = true
      rw [Bool.and_eq_true]
      exact ⟨he, rfl⟩
    | cons d rest2 =>
      have h' : (edgeB m c d && edgeRouteB m (d :: rest2)) = true := h
      rw [Bool.and_eq_true] at h'
      rcases h' with ⟨he1, hrest⟩
      have hl' : (d :: rest2).getLast? = some a := by
        rwa [List.getLast?_cons_cons] at hl
      show (edgeB m c d && edgeRouteB m ((d :: rest2) ++ [n])) = true
      rw [Bool.and_eq_true]
      exact ⟨he1, ih a n hrest hl' he⟩

/-- Splitting the last edge off an edge route of length at least 2. -/
theorem edgeRoute_snoc {m : Maze} :
    ∀ l : List Point, edgeRouteB m l = true → 2 ≤ l.length →
      ∃ (l' : List Point) (u v : Point), l = l' ++ [v] ∧
        l'.getLast? = some u ∧ edgeRouteB m l' = true ∧
        edgeB m u v = true ∧ l'.length + 1 = l.length ∧
        l'.head? = l.head? := by
  intro l
  induction l with
  | nil => intro _ hlen; simp at hlen
  | cons a rest ih =>
    intro h hlen
    cases rest with
    | nil => simp at hlen
    | cons b rest2 =>
      have h' : (edgeB m a b && edgeRouteB m (b :: rest2)) = true := h
      rw [Bool.and_eq_true] at h'
      rcases h' with ⟨he, hrest⟩
      cases rest2 with
      | nil =>
        exact ⟨[a], a, b, rfl, rfl, rfl, he, rfl, rfl⟩
      | cons c rest3 =>
        have hlen2 : 2 ≤ (b :: c :: rest3).length := by
          simp [List.length_cons]
        rcases ih hrest hlen2 with ⟨l', u, v, hsplit, hlast, hroute, hedge,
          hlen', hhead⟩
        have hl'ne : l' ≠ [] := by
          intro hnil
          rw [hnil] at hhead
          exact Option.noConfusion hhead
        rcases hl' : l' with _ | ⟨b', tail'⟩
        · exact absurd hl' hl'ne
        have hb' : b' = b := by
          rw [hl'] at hhead
          exact Option.some.inj hhead
        subst hb'
        refine ⟨a :: l', u, v, ?_, ?_, ?_, hedge, ?_, rfl⟩
        · rw [List.cons_append, ← hsplit]
        · rw [hl']
          rw [List.getLast?_cons_cons]
          rw [← hl', hlast]
        · rw [hl']
          show (edgeB m a b' && edgeRouteB m (b' :: tail')) = true
          rw [Bool.and_eq_true]
          rw [hl'] at hroute
          exact ⟨he, hroute⟩
        · simp only [List.length_cons] at hlen' ⊢
          omega

/-! ## The breadth-first expansion -/

/-- Full characterization of expanding one path by a successor list. -/
theorem expand_foldl_spec (path : List Point) :
    ∀ (succs : List Point) (acc : List Point × List (List Point)),
      (∀ v ∈ acc.1, v ∈ (List.foldl (expandStep path) acc succs).1) ∧
      (∀ q ∈ acc.2, q ∈ (List.foldl (expandStep path) acc succs).2) ∧
      (∀ v ∈ (List.foldl (expandStep path) acc succs).1,
        v ∈ acc.1 ∨ v ∈ succs) ∧
      (∀ n ∈ succs, n ∈ (List.foldl (expandStep path) acc succs).1) ∧
      (∀ q ∈ (List.foldl (expandStep path) acc succs).2,
        q ∈ acc.2 ∨ ∃ n, n ∈ succs ∧ n ∉ acc.1 ∧ q = n :: path) ∧
      (∀ v ∈ (List.foldl (expandStep path) acc succs).1,
        v ∈ acc.1 ∨ v :: path ∈ (List.foldl (expandStep path) acc succs).2) := by
  intro succs
  induction succs with
  | nil =>
    intro acc
    simp only [List.foldl_nil]
    exact ⟨fun v hv => hv, fun q hq => hq, fun v hv => Or.inl hv,
      fun n hn => absurd hn (List.not_mem_nil n),
      fun q hq => Or.inl hq, fun v hv => Or.inl hv⟩
  | cons n rest ih =>
    intro acc
    rw [List.foldl_cons]
    obtain ⟨ih1, ih2, ih3, ih4, ih5, ih6⟩ := ih (expandStep path acc n)
    by_cases hn : n ∈ acc.1
    · have hstep : expandStep path acc n = acc := by
        unfold expandStep
        rw [if_pos hn]
      rw [hstep] at ih1 ih2 ih3 ih4 ih5 ih6 ⊢
      refine ⟨ih1, ih2, ?_, ?_, ?_, ih6⟩
      · intro v hv
        rcases ih3 v hv with h | h
        · exact Or.inl h
        · exact Or.inr (List.mem_cons_of_mem _ h)
      · intro n' hn'
        rcases List.mem_cons.mp hn' with rfl | hn'
        · exact ih1 n' hn
        · exact ih4 n' hn'
      · intro q hq
        rcases ih5 q hq with h | ⟨n', hn', hnv, rfl⟩
        · exact Or.inl h
        · exact Or.inr ⟨n', List.mem_cons_of_mem _ hn', hnv, rfl⟩
    · have hstep : expandStep path acc n =
          (n :: acc.1, acc.2 ++ [n :: path]) := by
        unfold expandStep
        rw [if_neg hn]
      rw [hstep] at ih1 ih2 ih3 ih4 ih5 ih6 ⊢
      refine ⟨?_, ?_, ?_, ?_, ?_, ?_⟩
      · intro v hv
        exact ih1 v (List.mem_cons_of_mem _ hv)
      · intro q hq
        exact ih2 q (List.mem_append_left _ hq)
      · intro v hv
        rcases ih3 v hv with h | h
        · rcases List.mem_cons.mp h with rfl | h
          · exact Or.inr (List.mem_cons_self _ _)
          · exact Or.inl h
        · exact Or.inr (List.mem_cons_of_mem _ h)
      · intro n' hn'
        rcases List.mem_cons.mp hn' with rfl | hn'
        · exact ih1 n' (List.mem_cons_self _ _)
        · exact ih4 n' hn'
      · intro q hq
        rcases ih5 q hq with h | ⟨n', hn', hnv, rfl⟩
        · rcases List.mem_append.mp h with h | h
          · exact Or.inl h
          · rcases List.mem_singleton.mp h with rfl
            exact Or.inr ⟨n, List.mem_cons_self _ _, hn, rfl⟩
        · refine Or.inr ⟨n', List.mem_cons_of_mem _ hn', ?_, rfl⟩
          intro hmem
          exact hnv (List.mem_cons_of_mem _ hmem)
      · intro v hv
        rcases ih6 v hv with h | h
        · rcases List.mem_cons.mp h with rfl | h
          · exact Or.inr
              (ih2 _ (List.mem_append_right _ (List.mem_singleton_self _)))
          · exact Or.inl h
        · exact Or.inr h

/-- Characterization of expanding one frontier path. -/
theorem expandPath_spec {m : Maze} {visited : List Point}
    {path v1 : List Point} {new1 : List (List Point)}
    (h : expandPath m visited path = some (v1, new1)) :
    (∀ v ∈ visited, v ∈ v1) ∧
    (∀ q ∈ new1, ∃ n p, path.head? = some p ∧ edgeB m p n = true ∧
      n ∉ visited ∧ q = n :: path ∧ n ∈ v1) ∧
    (∀ p, path.head? = some p → ∀ L, m.successors p = some L →
      ∀ b ∈ L, b ∈ v1) ∧
    (∀ v ∈ v1, v ∈ visited ∨ v :: path ∈ new1) := by
  rcases hp : path with _ | ⟨p, tail⟩ <;> rw [hp] at h <;>
    unfold expandPath at h
  · have hpair := Option.some.inj h
    have hv1 : visited = v1 := congrArg Prod.fst hpair
    have hn1 : ([] : List (List Point)) = new1 := congrArg Prod.snd hpair
    subst hv1
    subst hn1
    refine ⟨fun v hv => hv, ?_, ?_, fun v hv => Or.inl hv⟩
    · intro q hq
      exact absurd hq (List.not_mem_nil q)
    · intro p hp'
      exact absurd hp' (by simp)
  · have h' : (match m.successors p with
        | none => none
        | some succs =>
          some (List.foldl (expandStep (p :: tail)) (visited, []) succs)) =
        some (v1, new1) := h
    clear h
    rcases hs : m.successors p with _ | succs <;> rw [hs] at h'
    · exact Option.noConfusion h'
    · have hpair := Option.some.inj h'
      have hv1 : (List.foldl (expandStep (p :: tail)) (visited, []) succs).1 =
          v1 := congrArg Prod.fst hpair
      have hn1 : (List.foldl (expandStep (p :: tail)) (visited, []) succs).2 =
          new1 := congrArg Prod.snd hpair
      obtain ⟨s1, s2, s3, s4, s5, s6⟩ :=
        expand_foldl_spec (p :: tail) succs (visited, [])
      rw [hv1] at s1 s3 s4 s6
      rw [hn1] at s2 s5 s6
      refine ⟨s1, ?_, ?_, ?_⟩
      · intro q hq
        rcases s5 q hq with h' | ⟨n, hn, hnv, rfl⟩
        · exact absurd h' (List.not_mem_nil q)
        · exact ⟨n, p, rfl, edgeB_iff.mpr ⟨succs, hs, hn⟩, hnv, rfl, s4 n hn⟩
      · intro p' hp' L hL b hb
        rcases Option.some.inj hp' with rfl
        rw [hs] at hL
        rcases Option.some.inj hL with rfl
        exact s4 b hb
      · intro v hv
        exact s6 v hv

/-- Characterization of expanding a whole level. -/
theorem expandLevel_spec {m : Maze} :
    ∀ (frontier : List (List Point)) (visited v' : List Point)
      (frontier' : List (List Point)),
      expandLevel m visited frontier = some (v', frontier') →
      (∀ v ∈ visited, v ∈ v') ∧
      (∀ q ∈ frontier', ∃ path ∈ frontier, ∃ n p, path.head? = some p ∧
        edgeB m p n = true ∧ n ∉ visited ∧ q = n :: path ∧ n ∈ v') ∧
      (∀ path ∈ frontier, ∀ p, path.head? = some p →
        ∀ L, m.successors p = some L → ∀ b ∈ L, b ∈ v') ∧
      (∀ v ∈ v', v ∈ visited ∨ ∃ q ∈ frontier', q.head? = some v) := by
  intro frontier
  induction frontier with
  | nil =>
    intro visited v' frontier' h
    unfold expandLevel at h
    have hpair := Option.some.inj h
    have hv1 : visited = v' := congrArg Prod.fst hpair
    have hn1 : ([] : List (List Point)) = frontier' := congrArg Prod.snd hpair
    subst hv1
    subst hn1
    refine ⟨fun v hv => hv, ?_, ?_, fun v hv => Or.inl hv⟩
    · intro q hq
      exact absurd hq (List.not_mem_nil q)
    · intro path hpath
      exact absurd hpath (List.not_mem_nil path)
  | cons path rest ih =>
    intro visited v' frontier' h
    unfold expandLevel at h
    rcases h1 : expandPath m visited path with _ | ⟨v1, new1⟩ <;>
      rw [h1] at h
    · exact Option.noConfusion h
    · have h' : (match expandLevel m v1 rest with
          | none => none
          | some (v2, new2) => some (v2, new1 ++ new2)) =
          some (v', frontier') := h
      clear h
      rcases h2 : expandLevel m v1 rest with _ | ⟨v2, new2⟩ <;> rw [h2] at h'
      · exact Option.noConfusion h'
      · have hpair := Option.some.inj h'
        have hv2 : v2 = v' := congrArg Prod.fst hpair
        have hn2 : new1 ++ new2 = frontier' := congrArg Prod.snd hpair
        subst hv2
        subst hn2
        obtain ⟨p1, p2, p3, p4⟩ := expandPath_spec h1
        obtain ⟨l1, l2, l3, l4⟩ := ih v1 v2 new2 h2
        refine ⟨?_, ?_, ?_, ?_⟩
        · intro v hv
          exact l1 v (p1 v hv)
        · intro q hq
          rcases List.mem_append.mp hq with hq | hq
          · rcases p2 q hq with ⟨n, p, hhead, hedge, hnv, rfl, hnv1⟩
            exact ⟨path, List.mem_cons_self _ _, n, p, hhead, hedge, hnv,
              rfl, l1 n hnv1⟩
          · rcases l2 q hq with ⟨path', hpath', n, p, hhead, hedge, hnv, rfl,
              hnv2⟩
            refine ⟨path', List.mem_cons_of_mem _ hpath', n, p, hhead, hedge,
              ?_, rfl, hnv2⟩
            intro hmem
            exact hnv (p1 n hmem)
        · intro path' hpath' p hp L hL b hb
          rcases List.mem_cons.mp hpath' with rfl | hpath'
          · exact l1 b (p3 p hp L hL b hb)
          · exact l3 path' hpath' p hp L hL b hb
        · intro v hv
          rcases l4 v hv with hv1 | ⟨q, hq, hhead⟩
          · rcases p4 v hv1 with hv2 | hv2
            · exact Or.inl hv2
            · exact Or.inr ⟨v :: path, List.mem_append_left _ hv2, rfl⟩
          · exact Or.inr ⟨q, List.mem_append_right _ hq, hhead⟩

/-- The level expansion succeeds when every frontier endpoint has a
non-panicking successor query. -/
theorem expandLevel_total {m : Maze} :
    ∀ (frontier : List (List Point)) (visited : List Point),
      (∀ path ∈ frontier, ∃ p, path.head? = some p ∧
        ∃ L, m.successors p = some L) →
      ∃ r, expandLevel m visited frontier = some r := by
  intro frontier
  induction frontier with
  | nil =>
    intro visited _
    exact ⟨(visited, []), rfl⟩
  | cons path rest ih =>
    intro visited htot
    rcases htot path (List.mem_cons_self _ _) with ⟨p, hp, L, hL⟩
    rcases hpath : path with _ | ⟨p', tail⟩
    · rw [hpath] at hp
      exact Option.noConfusion hp
    · subst hpath
      have hpp : p' = p := Option.some.inj hp
      subst hpp
      have h1 : expandPath m visited (p' :: tail) =
          some (List.foldl (expandStep (p' :: tail)) (visited, []) L) := by
        show (match m.successors p' with
          | none => none
          | some succs =>
            some (List.foldl (expandStep (p' :: tail)) (visited, []) succs)) =
          some (List.foldl (expandStep (p' :: tail)) (visited, []) L)
        rw [hL]
      rcases ih (List.foldl (expandStep (p' :: tail)) (visited, []) L).1
          (fun q hq => htot q (List.mem_cons_of_mem _ hq)) with ⟨⟨v2, n2⟩, h2⟩
      refine ⟨(v2,
        (List.foldl (expandStep (p' :: tail)) (visited, []) L).2 ++ n2), ?_⟩
      show (match expandPath m visited (p' :: tail) with
        | none => none
        | some (v1, new1) =>
          match expandLevel m v1 rest with
          | none => none
          | some (v2, new2) => some (v2, new1 ++ new2)) =
        some (v2,
          (List.foldl (expandStep (p' :: tail)) (visited, []) L).2 ++ n2)
      rw [h1]
      show (match expandLevel m
          (List.foldl (expandStep (p' :: tail)) (visited, []) L).1 rest with
        | none => none
        | some (v2, new2) =>
          some (v2,
            (List.foldl (expandStep (p' :: tail)) (visited, []) L).2 ++
              new2)) =
        some (v2,
          (List.foldl (expandStep (p' :: tail)) (visited, []) L).2 ++ n2)
      rw [h2]

/-- An empty frontier makes the search finish with no path. -/
theorem bfsLoop_nil (m : Maze) (g : Point) (fuel : Nat)
    (visited : List Point) : bfsLoop m g fuel visited [] = some none := by
  cases fuel <;> rfl

/-- In a successor-closed visited set containing the head of a route, the
route's last point is also in the set. -/
theorem route_closed {m : Maze} {visited : List Point}
    (hcl : ∀ v ∈ visited, ∀ L, m.successors v = some L →
      ∀ b ∈ L, b ∈ visited) :
    ∀ l : List Point, edgeRouteB m l = true →
      (∀ a : Point, l.head? = some a → a ∈ visited) →
      ∀ v : Point, l.getLast? = some v → v ∈ visited := by
  intro l
  induction l with
  | nil =>
    intro _ _ v hv
    exact Option.noConfusion hv
  | cons a rest ih =>
    intro h hhead v hlast
    cases rest with
    | nil =>
      have hav : a = v := Option.some.inj hlast
      rw [← hav]
      exact hhead a rfl
    | cons b rest2 =>
      have h' : (edgeB m a b && edgeRouteB m (b :: rest2)) = true := h
      rw [Bool.and_eq_true] at h'
      rcases h' with ⟨he, hrest⟩
      have ha := hhead a rfl
      rcases edgeB_iff.mp he with ⟨L, hL, hb⟩
      have hbv := hcl a ha L hL b hb
      rw [List.getLast?_cons_cons] at hlast
      refine ih hrest (fun c hc => ?_) v hlast
      have hbc : b = c := Option.some.inj hc
      rw [← hbc]
      exact hbv

/-- Frontier validity is preserved by a level expansion. -/
theorem frontierOk_expand {m : Maze} {s : Point} {visited v' : List Point}
    {frontier frontier' : List (List Point)}
    (hF : FrontierOk m s visited frontier)
    (h : expandLevel m visited frontier = some (v', frontier')) :
    FrontierOk m s v' frontier' := by
  obtain ⟨e1, e2, e3, e4⟩ := expandLevel_spec frontier visited v' frontier' h
  intro q hq
  rcases e2 q hq with ⟨path, hpath, n, p, hhead, hedge, hnv, rfl, hnv'⟩
  obtain ⟨⟨hne, hlast, hroute, hnodup⟩, hsub⟩ := hF path hpath
  have hn_not_path : n ∉ path := fun hmem => hnv (hsub n hmem)
  refine ⟨⟨List.cons_ne_nil n path, ?_, ?_, ?_⟩, ?_⟩
  · rcases path with _ | ⟨a, t⟩
    · exact absurd rfl hne
    · rw [List.getLast?_cons_cons]
      exact hlast
  · rw [List.reverse_cons]
    exact edgeRoute_append_edge path.reverse p n hroute
      (by rw [List.getLast?_reverse]; exact hhead) hedge
  · exact List.nodup_cons.mpr ⟨hn_not_path, hnodup⟩
  · intro q' hq'
    rcases List.mem_cons.mp hq' with rfl | hq'
    · exact hnv'
    · exact e1 q' (hsub q' hq')

/-- Any path returned by the breadth-first loop from a valid frontier is a
duplicate-free edge route from the start to the goal. -/
theorem bfsLoop_valid {m : Maze} {s g : Point} :
    ∀ (fuel : Nat) (visited : List Point) (frontier : List (List Point)),
      FrontierOk m s visited frontier →
      ∀ steps, bfsLoop m g fuel visited frontier = some (some steps) →
        steps.head? = some s ∧ steps.getLast? = some g ∧
        edgeRouteB m steps = true ∧ steps.Nodup := by
  intro fuel
  induction fuel with
  | zero =>
    intro visited frontier _ steps h
    exact Option.noConfusion (Option.some.inj h)
  | succ fuel ih =>
    intro visited frontier hF steps h
    rcases hfr : frontier with _ | ⟨path, paths⟩
    · rw [hfr, bfsLoop_nil] at h
      exact Option.noConfusion (Option.some.inj h)
    · rw [hfr] at h hF
      have h' : (match (path :: paths).find?
            (fun q => decide (q.head? = some g)) with
          | some found => some (some found.reverse)
          | none =>
            match expandLevel m visited (path :: paths) with
            | none => none
            | some (v', frontier') => bfsLoop m g fuel v' frontier') =
          some (some steps) := h
      clear h
      rcases hfind : (path :: paths).find?
          (fun q => decide (q.head? = some g)) with _ | found <;>
        rw [hfind] at h'
      · rcases hx : expandLevel m visited (path :: paths) with
          _ | ⟨v', frontier'⟩ <;> rw [hx] at h'
        · exact Option.noConfusion h'
        · exact ih v' frontier' (frontierOk_expand hF hx) steps h'
      · have hpred := List.find?_some hfind
        rw [decide_eq_true_eq] at hpred
        have hmem := List.mem_of_find?_eq_some hfind
        obtain ⟨⟨hne, hlast, hroute, hnodup⟩, _⟩ := hF found hmem
        have hsteps : found.reverse = steps :=
          Option.some.inj (Option.some.inj h')
        subst hsteps
        refine ⟨?_, ?_, hroute, List.nodup_reverse.mpr hnodup⟩
        · rw [List.head?_reverse]
          exact hlast
        · rw [List.getLast?_reverse]
          exact hpred

/-- Any path returned by the depth-first search from a valid partial path is
an edge route from the start to the goal (duplicate-free as well, since the
search skips nodes already on the path). -/
theorem dfs_valid {m : Maze} {s g : Point} :
    ∀ (fuel : Nat) (path : List Point),
      RevPathOk m s path →
      ∀ steps, dfsStepF m g fuel path = some (some steps) →
        steps.head? = some s ∧ steps.getLast? = some g ∧
        edgeRouteB m steps = true ∧ steps.Nodup := by
  intro fuel
  induction fuel with
  | zero =>
    intro path _ steps h
    exact Option.noConfusion (Option.some.inj h)
  | succ fuel ih =>
    intro path hP steps h
    obtain ⟨hne, hlast, hroute, hnodup⟩ := hP
    rcases hpath : path with _ | ⟨cur, tail⟩
    · exact absurd hpath hne
    subst hpath
    have h'' : (if cur = g then some (some (cur :: tail).reverse)
        else
          match m.successors cur with
          | none => none
          | some succs =>
            succs.foldl
              (fun acc n =>
                match acc with
                | some none =>
                  if n ∈ cur :: tail then some none
                  else dfsStepF m g fuel (n :: cur :: tail)
                | r => r)
              (some none)) = some (some steps) := h
    clear h
    by_cases hcur : cur = g
    · rw [if_pos hcur] at h''
      have hsteps : (cur :: tail).reverse = steps :=
        Option.some.inj (Option.some.inj h'')
      subst hsteps
      refine ⟨?_, ?_, hroute, List.nodup_reverse.mpr hnodup⟩
      · rw [List.head?_reverse]
        exact hlast
      · rw [List.getLast?_reverse, ← hcur]
        rfl
    · rw [if_neg hcur] at h''
      rcases hs : m.successors cur with _ | succs <;> rw [hs] at h''
      · exact Option.noConfusion h''
      · have hedges : ∀ n ∈ succs, edgeB m cur n = true := fun n hn =>
          edgeB_iff.mpr ⟨succs, hs, hn⟩
        have haux : ∀ (cands : List Point)
            (acc : Option (Option (List Point))),
            (∀ n ∈ cands, edgeB m cur n = true) →
            (∀ steps', acc = some (some steps') →
              steps'.head? = some s ∧ steps'.getLast? = some g ∧
              edgeRouteB m steps' = true ∧ steps'.Nodup) →
            ∀ steps', List.foldl
              (fun acc n =>
                match acc with
                | some none =>
                  if n ∈ cur :: tail then some none
                  else dfsStepF m g fuel (n :: cur :: tail)
                | r => r) acc cands = some (some steps') →
              steps'.head? = some s ∧ steps'.getLast? = some g ∧
              edgeRouteB m steps' = true ∧ steps'.Nodup := by
          intro cands
          induction cands with
          | nil =>
            intro acc _ hacc steps' hfold
            exact hacc steps' hfold
          | cons n rest ihc =>
            intro acc hcand hacc steps' hfold
            rw [List.foldl_cons] at hfold
            apply ihc _ (fun n' hn' => hcand n' (List.mem_cons_of_mem _ hn'))
              ?_ steps' hfold
            intro steps'' hstep
            rcases acc with _ | o
            · exact Option.noConfusion hstep
            rcases o with _ | p0
            · have hstep' : (if n ∈ cur :: tail then some none
                  else dfsStepF m g fuel (n :: cur :: tail)) =
                  some (some steps'') := hstep
              by_cases hmem : n ∈ cur :: tail
              · rw [if_pos hmem] at hstep'
                exact Option.noConfusion (Option.some.inj hstep')
              · rw [if_neg hmem] at hstep'
                apply ih (n :: cur :: tail) ?_ steps'' hstep'
                refine ⟨List.cons_ne_nil _ _, ?_, ?_, ?_⟩
                · rw [List.getLast?_cons_cons]
                  exact hlast
                · rw [List.reverse_cons]
                  exact edgeRoute_append_edge (cur :: tail).reverse cur n
                    hroute (by rw [List.getLast?_reverse]; rfl)
                    (hcand n (List.mem_cons_self _ _))
                · exact List.nodup_cons.mpr ⟨hmem, hnodup⟩
            · exact hacc steps'' hstep
        exact haux succs (some none) hedges
          (fun steps' hs' => Option.noConfusion (Option.some.inj hs'))
          steps h''

/-- With start equal to goal, the breadth-first search returns `[start]`
immediately (the goal test is checked before any expansion). -/
theorem bfs_self (m : Maze) (s : Point) : m.bfs s s = some (some [s]) := by
  have h2 : m.bfs s s = (match ([[s]] : List (List Point)).find?
        (fun q => decide (q.head? = some s)) with
      | some found => some (some found.reverse)
      | none =>
        match expandLevel m [s] [[s]] with
        | none => none
        | some (v', frontier') =>
          bfsLoop m s (m.width * m.height + 1) v' frontier') := rfl
  rw [h2, show ([[s]] : List (List Point)).find?
      (fun q => decide (q.head? = some s)) = some [s] by
    simp [List.find?_cons]]
  rfl

/-- With start equal to goal, the depth-first search returns `[start]`. -/
theorem dfs_self (m : Maze) (s : Point) : m.dfs s s = some (some [s]) := by
  have h2 : m.dfs s s =
      (if s = s then some (some ([s] : List Point).reverse)
       else match m.successors s with
         | none => none
         | some succs => succs.foldl (fun acc n => match acc with
             | some none => if n ∈ [s] then some none
               else dfsStepF m s (m.width * m.height + 1) (n :: [s])
             | r => r) (some none)) := rfl
  rw [h2, if_pos rfl]
  rfl

/-- With start equal to goal, every selector returns the one-point path,
regardless of the start's cell state: no endpoint validation happens. -/
theorem calcSteps_self (m : Maze) (s : Point) (alg : Algorithm) :
    Path.calcSteps m s s alg = some [s] := by
  cases alg
  · show (match m.dijkstra s s with
      | none => none
      | some none => none
      | some (some p) => some p) = some [s]
    rw [show m.dijkstra s s = some (some [s]) from bfs_self m s]
  · show (match m.bfs s s with
      | none => none
      | some none => none
      | some (some p) => some p) = some [s]
    rw [bfs_self m s]
  · show (match m.dfs s s with
      | none => none
      | some none => none
      | some (some p) => some p) = some [s]
    rw [dfs_self m s]

/-- On a freshly constructed (all-`Wall`) grid no cell passes the
successors filter. -/
theorem notWallB_new (w h : Nat) (q : Point) :
    notWallB (Maze.new w h) q = false := by
  unfold notWallB
  rw [Maze.get_new]
  by_cases hb : q.x < w ∧ q.y < h
  · rw [if_pos hb]
    rfl
  · rw [if_neg hb]

/-- On an all-`Wall` grid, `successors` either panics (border) or returns
the empty list. -/
theorem successors_new (w h : Nat) (p : Point) :
    (Maze.new w h).successors p = none ∨
    (Maze.new w h).successors p = some [] := by
  by_cases hx : 1 ≤ p.x
  · by_cases hy : 1 ≤ p.y
    · right
      rw [Maze.successors_pos _ hx hy]
      congr 1
      rw [List.filter_eq_nil_iff]
      intro a _
      rw [notWallB_new]
      simp
    · exact Or.inl (Maze.successors_border _ (Or.inr (by omega)))
  · exact Or.inl (Maze.successors_border _ (Or.inl (by omega)))

/-- On an all-`Wall` grid with distinct endpoints, the breadth-first search
either panics (border start) or finds no path. -/
theorem bfs_wall_none {w h : Nat} {s g : Point} (hne : s ≠ g) :
    (Maze.new w h).bfs s g = none ∨
    (Maze.new w h).bfs s g = some none := by
  have hfind : ([[s]] : List (List Point)).find?
      (fun q => decide (q.head? = some g)) = none := by
    rw [List.find?_eq_none]
    intro x hx
    rcases List.mem_singleton.mp hx with rfl
    simp [hne]
  have h2 : (Maze.new w h).bfs s g =
      (match expandLevel (Maze.new w h) [s] [[s]] with
        | none => none
        | some (v', frontier') =>
          bfsLoop (Maze.new w h) g (w * h + 1) v' frontier') := by
    have h3 : (Maze.new w h).bfs s g =
        (match ([[s]] : List (List Point)).find?
            (fun q => decide (q.head? = some g)) with
          | some found => some (some found.reverse)
          | none =>
            match expandLevel (Maze.new w h) [s] [[s]] with
            | none => none
            | some (v', frontier') =>
              bfsLoop (Maze.new w h) g (w * h + 1) v' frontier') := rfl
    rw [h3, hfind]
  rcases successors_new w h s with hs | hs
  · left
    rw [h2]
    have hxp : expandPath (Maze.new w h) [s] [s] = none := by
      show (match (Maze.new w h).successors s with
        | none => none
        | some succs =>
          some (List.foldl (expandStep [s]) ([s], []) succs)) = none
      rw [hs]
    have hx : expandLevel (Maze.new w h) [s] [[s]] = none := by
      show (match expandPath (Maze.new w h) [s] [s] with
        | none => none
        | some (v1, new1) =>
          match expandLevel (Maze.new w h) v1 [] with
          | none => none
          | some (v2, new2) => some (v2, new1 ++ new2)) = none
      rw [hxp]
    rw [hx]
  · right
    rw [h2]
    have hxp : expandPath (Maze.new w h) [s] [s] = some ([s], []) := by
      show (match (Maze.new w h).successors s with
        | none => none
        | some succs =>
          some (List.foldl (expandStep [s]) ([s], []) succs)) = some ([s], [])
      rw [hs]
      rfl
    have hx : expandLevel (Maze.new w h) [s] [[s]] = some ([s], []) := by
      show (match expandPath (Maze.new w h) [s] [s] with
        | none => none
        | some (v1, new1) =>
          match expandLevel (Maze.new w h) v1 [] with
          | none => none
          | some (v2, new2) => some (v2, new1 ++ new2)) = some ([s], [])
      rw [hxp]
      rfl
    rw [hx]
    exact bfsLoop_nil _ _ _ _

/-- On an all-`Wall` grid with distinct endpoints, the depth-first search
either panics (border start) or finds no path. -/
theorem dfs_wall_none {w h : Nat} {s g : Point} (hne : s ≠ g) :
    (Maze.new w h).dfs s g = none ∨
    (Maze.new w h).dfs s g = some none := by
  have h2 : (Maze.new w h).dfs s g =
      (if s = g then some (some ([s] : List Point).reverse)
       else match (Maze.new w h).successors s with
         | none => none
         | some succs => succs.foldl (fun acc n => match acc with
             | some none => if n ∈ [s] then some none
               else dfsStepF (Maze.new w h) g (w * h + 1) (n :: [s])
             | r => r) (some none)) := rfl
  rw [h2, if_neg hne]
  rcases successors_new w h s with hs | hs <;> rw [hs]
  · exact Or.inl rfl
  · exact Or.inr rfl

/-- The singleton start frontier is valid. -/
theorem frontierOk_init (m : Maze) (s : Point) : FrontierOk m s [s] [[s]] := by
  intro q hq
  rcases List.mem_singleton.mp hq with rfl
  exact ⟨⟨List.cons_ne_nil s [], rfl, rfl, List.nodup_singleton s⟩,
    fun q' hq' => hq'⟩

/-! ## C1: error behaviour of the pathfinding call -/

/-- C1 (counterexample): on a 5×5 grid whose only `Open` cells are the two
disconnected endpoints `(1,1)` and `(3,3)`, the call does not return a
`NoPathFound` error — it panics (`expect("failed to generate path")`),
modelled by the panic outcome `none`. No `InvalidEndpoint` check exists
anywhere in the code. -/
theorem c1_counterexample :
    (((Maze.new 5 5).set 1 1 GridCell.Path).set 3 3 GridCell.Path).get 1 1 =
      some GridCell.Path ∧
    (((Maze.new 5 5).set 1 1 GridCell.Path).set 3 3 GridCell.Path).get 3 3 =
      some GridCell.Path ∧
    Path.calcSteps
      (((Maze.new 5 5).set 1 1 GridCell.Path).set 3 3 GridCell.Path)
      ⟨1, 1⟩ ⟨3, 3⟩ Algorithm.Bfs = none := by
  decide

/-- C1 (amended): the pathfinding call performs no endpoint validation and
returns no error value. On a grid with no `Open` cells and distinct
endpoints every selector panics (either inside `successors` on a border
start or at the final `expect`), modelled by `none`; and with
`start = goal` it returns the one-point path `[start]` even though the
start is a `Wall` cell. -/
theorem c1_amended (w h : Nat) (s g : Point) (alg : Algorithm) (m : Maze) :
    (s ≠ g → Path.calcSteps (Maze.new w h) s g alg = none) ∧
    Path.calcSteps m s s alg = some [s] := by
  constructor
  · intro hne
    cases alg
    · show (match (Maze.new w h).bfs s g with
        | none => none
        | some none => none
        | some (some p) => some p) = none
      rcases bfs_wall_none hne with hb | hb <;> rw [hb]
    · show (match (Maze.new w h).bfs s g with
        | none => none
        | some none => none
        | some (some p) => some p) = none
      rcases bfs_wall_none hne with hb | hb <;> rw [hb]
    · show (match (Maze.new w h).dfs s g with
        | none => none
        | some none => none
        | some (some p) => some p) = none
      rcases dfs_wall_none hne with hb | hb <;> rw [hb]
  · exact calcSteps_self m s alg

/-- Witness for C1 (amended) on a 4×4 all-`Wall` grid. -/
theorem c1_amended_witness :
    Path.calcSteps (Maze.new 4 4) ⟨1, 1⟩ ⟨2, 1⟩ Algorithm.Dfs = none ∧
    Path.calcSteps (Maze.new 4 4) ⟨1, 1⟩ ⟨1, 1⟩ Algorithm.Dfs =
      some [⟨1, 1⟩] :=
  ⟨(c1_amended 4 4 ⟨1, 1⟩ ⟨2, 1⟩ Algorithm.Dfs (Maze.new 4 4)).1 (by decide),
   (c1_amended 4 4 ⟨1, 1⟩ ⟨2, 1⟩ Algorithm.Dfs (Maze.new 4 4)).2⟩

/-! ## C7: validity of returned paths -/

/-- C7 (counterexample): a returned path's consecutive cells need not both
be `Open` — the start cell is never validated. With only `(2,1)` `Open`,
searching from the `Wall` start `(1,1)` returns the path
`[(1,1), (2,1)]` whose first cell is a `Wall`. -/
theorem c7_counterexample :
    Path.calcSteps ((Maze.new 3 3).set 2 1 GridCell.Path) ⟨1, 1⟩ ⟨2, 1⟩
      Algorithm.Bfs = some [⟨1, 1⟩, ⟨2, 1⟩] ∧
    ((Maze.new 3 3).set 2 1 GridCell.Path).get 1 1 = some GridCell.Wall := by
  decide

/-- C7 (amended): every returned path starts at the requested start, ends
at the requested goal, every consecutive pair is at unit Manhattan distance
with the second cell `Open` (the start cell itself may be a `Wall`), the
length is at least 1 and equals 1 exactly when start = goal, and for the
breadth-first and uniform-cost selectors no coordinate repeats. -/
theorem c7_amended (m : Maze) (s g : Point) (alg : Algorithm)
    (steps : List Point) (h : Path.calcSteps m s g alg = some steps) :
    steps.head? = some s ∧ steps.getLast? = some g ∧
    List.Chain' (fun a b => Nat.dist a.x b.x + Nat.dist a.y b.y = 1 ∧
      m.get b.x b.y = some GridCell.Path) steps ∧
    1 ≤ steps.length ∧ (steps.length = 1 ↔ s = g) ∧
    ((alg = Algorithm.Bfs ∨ alg = Algorithm.Dijkstra) → steps.Nodup) := by
  have hcore : steps.head? = some s ∧ steps.getLast? = some g ∧
      edgeRouteB m steps = true ∧ steps.Nodup := by
    cases alg
    · have h' : (match m.bfs s g with
          | none => none
          | some none => none
          | some (some p) => some p) = some steps := h
      rcases hb : m.bfs s g with _ | o <;> rw [hb] at h'
      · exact Option.noConfusion h'
      · rcases o with _ | p
        · exact Option.noConfusion h'
        · rw [Option.some.inj h'] at hb
          exact bfsLoop_valid _ [s] [[s]] (frontierOk_init m s) steps hb
    · have h' : (match m.bfs s g with
          | none => none
          | some none => none
          | some (some p) => some p) = some steps := h
      rcases hb : m.bfs s g with _ | o <;> rw [hb] at h'
      · exact Option.noConfusion h'
      · rcases o with _ | p
        · exact Option.noConfusion h'
        · rw [Option.some.inj h'] at hb
          exact bfsLoop_valid _ [s] [[s]] (frontierOk_init m s) steps hb
    · have h' : (match m.dfs s g with
          | none => none
          | some none => none
          | some (some p) => some p) = some steps := h
      rcases hb : m.dfs s g with _ | o <;> rw [hb] at h'
      · exact Option.noConfusion h'
      · rcases o with _ | p
        · exact Option.noConfusion h'
        · rw [Option.some.inj h'] at hb
          exact dfs_valid _ [s]
            ⟨List.cons_ne_nil s [], rfl, rfl, List.nodup_singleton s⟩
            steps hb
  obtain ⟨h1, h2, h3, h4⟩ := hcore
  refine ⟨h1, h2, edgeRoute_chain steps h3, ?_, ?_, fun _ => h4⟩
  · rcases steps with _ | ⟨a, t⟩
    · exact Option.noConfusion h1
    · simp
  · constructor
    · intro hlen
      rcases steps with _ | ⟨a, t⟩
      · exact Option.noConfusion h1
      · rcases t with _ | ⟨b, t2⟩
        · have hs' := Option.some.inj h1
          rw [List.getLast?_singleton] at h2
          have hg' := Option.some.inj h2
          rw [← hs', ← hg']
        · simp at hlen
    · intro hsg
      subst hsg
      have hself := calcSteps_self m s alg
      rw [hself] at h
      rw [← Option.some.inj h]
      rfl

/-- Witness for C7 (amended) at a concrete one-point search. -/
theorem c7_amended_witness :
    ([⟨1, 1⟩] : List Point).head? = some ⟨1, 1⟩ ∧
    ([⟨1, 1⟩] : List Point).getLast? = some ⟨1, 1⟩ ∧
    List.Chain' (fun a b => Nat.dist a.x b.x + Nat.dist a.y b.y = 1 ∧
      (Maze.new 3 3).get b.x b.y = some GridCell.Path)
      ([⟨1, 1⟩] : List Point) ∧
    1 ≤ ([⟨1, 1⟩] : List Point).length ∧
    (([⟨1, 1⟩] : List Point).length = 1 ↔ (⟨1, 1⟩ : Point) = ⟨1, 1⟩) ∧
    ((Algorithm.Dfs = Algorithm.Bfs ∨ Algorithm.Dfs = Algorithm.Dijkstra) →
      ([⟨1, 1⟩] : List Point).Nodup) :=
  c7_amended (Maze.new 3 3) ⟨1, 1⟩ ⟨1, 1⟩ Algorithm.Dfs [⟨1, 1⟩] (by decide)

/-! ## Breadth-first minimality -/

/-- The level invariant holds at level 0. -/
theorem levelInv_init (m : Maze) (s g : Point) :
    LevelInv m s g [s] [[s]] 0 := by
  refine ⟨frontierOk_init m s, ?_, List.mem_singleton_self s, ?_, ?_, ?_, ?_,
    ?_⟩
  · intro p hp
    rcases List.mem_singleton.mp hp with rfl
    rfl
  · intro v hv
    rcases List.mem_singleton.mp hv with rfl
    exact Or.inr rfl
  · intro l v hr hlast hlen
    rcases l with _ | ⟨a, t⟩
    · exact absurd hr.1 (by unfold edgeRouteB; simp)
    rcases t with _ | ⟨b, t2⟩
    · have ha : a = s := Option.some.inj hr.2
      rw [List.getLast?_singleton] at hlast
      have hv' : a = v := Option.some.inj hlast
      rw [← hv', ha]
      exact List.mem_singleton_self s
    · simp at hlen
  · intro l v hr hlast hlen
    rcases l with _ | ⟨a, t⟩
    · exact absurd hr.1 (by unfold edgeRouteB; simp)
    · simp at hlen
  · intro v hv hnotend
    rcases List.mem_singleton.mp hv with rfl
    exact ((hnotend [v] (List.mem_singleton_self _)) rfl).elim
  · intro hg
    rcases List.mem_singleton.mp hg with rfl
    exact ⟨[g], List.mem_singleton_self _, rfl⟩

/-- The level invariant is preserved by a goal-free level expansion. -/
theorem levelInv_expand {m : Maze} {s g : Point}
    {visited v' : List Point} {frontier frontier' : List (List Point)}
    {k : Nat} (hI : LevelInv m s g visited frontier k)
    (hfind : frontier.find? (fun q => decide (q.head? = some g)) = none)
    (hx : expandLevel m visited frontier = some (v', frontier')) :
    LevelInv m s g v' frontier' (k + 1) := by
  obtain ⟨j1, j2, j3, j4, j5, j6, j7, j8⟩ := hI
  obtain ⟨e1, e2, e3, e4⟩ := expandLevel_spec frontier visited v' frontier' hx
  have hnog : ∀ p ∈ frontier, p.head? ≠ some g := by
    rw [List.find?_eq_none] at hfind
    intro p hp hhead
    exact hfind p hp (by rw [decide_eq_true_eq]; exact hhead)
  refine ⟨frontierOk_expand j1 hx, ?_, e1 s j3, ?_, ?_, ?_, ?_, ?_⟩
  · intro q hq
    rcases e2 q hq with ⟨path, hpath, n, p, _, _, _, rfl, _⟩
    rw [List.length_cons, j2 path hpath]
  · intro v hv
    rcases e4 v hv with hv1 | ⟨q, hq, hhead⟩
    · exact j4 v hv1
    · rcases e2 q hq with ⟨path, hpath, n, p, hh, hedge, _, rfl, _⟩
      have hn := Option.some.inj hhead
      rw [← hn]
      exact Or.inl (edgeB_props hedge).2
  · intro l v hr hlast hlen
    by_cases hshort : l.length ≤ k + 1
    · exact e1 v (j5 l v hr hlast hshort)
    · have h2le : 2 ≤ l.length := by omega
      rcases edgeRoute_snoc l hr.1 h2le with
        ⟨l', u, vv, rfl, hlast', hroute', hedge', hlen', hhead'⟩
      rw [List.getLast?_concat] at hlast
      have hvv := Option.some.inj hlast
      rw [← hvv]
      have hu : u ∈ visited := by
        apply j5 l' u ⟨hroute', hhead'.trans hr.2⟩ hlast'
        simp only [List.length_append, List.length_singleton] at hlen
        omega
      by_cases hep : ∃ p ∈ frontier, p.head? = some u
      · rcases hep with ⟨pp, hpp, hppu⟩
        rcases edgeB_iff.mp hedge' with ⟨L, hL, hvL⟩
        exact e3 pp hpp u hppu L hL vv hvL
      · push_neg at hep
        rcases edgeB_iff.mp hedge' with ⟨L, hL, hvL⟩
        exact e1 vv (j7 u hu hep L hL vv hvL)
  · intro l v hr hlast hlen
    have hv := j5 l v hr hlast (by omega)
    refine ⟨e1 v hv, ?_⟩
    intro q hq hhead
    rcases e2 q hq with ⟨path, hpath, n, p, _, _, hnv, rfl, _⟩
    have hn := Option.some.inj hhead
    rw [hn] at hnv
    exact hnv hv
  · intro v hv hnotend L hL b hb
    rcases e4 v hv with hv1 | ⟨q, hq, hhead⟩
    · by_cases hep : ∃ p ∈ frontier, p.head? = some v
      · rcases hep with ⟨pp, hpp, hppv⟩
        exact e3 pp hpp v hppv L hL b hb
      · push_neg at hep
        exact e1 b (j7 v hv1 hep L hL b hb)
    · exact absurd hhead (hnotend q hq)
  · intro hg
    rcases e4 g hg with hg1 | h
    · rcases j8 hg1 with ⟨p, hp, hh⟩
      exact absurd hh (hnog p hp)
    · exact h

/-- Under a border-clear grid with an `Open` start, every frontier endpoint
admits a non-panicking successor query. -/
theorem levelInv_total {m : Maze} {s g : Point}
    (hbc : borderClearB m = true)
    (hso : m.get s.x s.y = some GridCell.Path)
    {visited : List Point} {frontier : List (List Point)} {k : Nat}
    (hI : LevelInv m s g visited frontier k) :
    ∀ path ∈ frontier, ∃ p, path.head? = some p ∧
      ∃ L, m.successors p = some L := by
  obtain ⟨j1, _, _, j4, _⟩ := hI
  intro path hpath
  obtain ⟨⟨hne, _, _, _⟩, hsub⟩ := j1 path hpath
  rcases hp : path with _ | ⟨p, tail⟩
  · exact absurd hp hne
  · refine ⟨p, rfl, ?_⟩
    have hpv : p ∈ visited := hsub p (by rw [hp]; exact List.mem_cons_self _ _)
    have hopen : m.get p.x p.y = some GridCell.Path := by
      rcases j4 p hpv with h | h
      · exact h
      · rw [h]
        exact hso
    have hpos := borderClear_spec hbc p.x p.y hopen
    exact ⟨_, Maze.successors_pos m hpos.1 hpos.2⟩

/-- A fresh in-bounds member strictly grows the in-bounds visited count. -/
theorem visCard_grow {m : Maze} {visited v' : List Point} {n : Point}
    (hsub : ∀ v ∈ visited, v ∈ v') (hn : n ∈ v') (hnv : n ∉ visited)
    (hb : n.x < m.width ∧ n.y < m.height) :
    visCard m visited < visCard m v' := by
  unfold visCard
  apply Finset.card_lt_card
  constructor
  · intro p hp
    simp only [Finset.mem_filter] at hp ⊢
    exact ⟨hp.1, hsub p hp.2⟩
  · intro hsubset
    have hmem : n ∈ (allPoints m.width m.height).filter fun p => p ∈ v' := by
      simp only [Finset.mem_filter, mem_allPoints]
      exact ⟨hb, hn⟩
    have h2 := hsubset hmem
    simp only [Finset.mem_filter] at h2
    exact hnv h2.2

/-- The main breadth-first lemma: from a state satisfying the level
invariant with enough fuel, the search never runs out of fuel or panics, a
returned path is a shortest route from start to goal, and a `none` outcome
means no route exists at all. -/
theorem bfsLoop_minimal {m : Maze} {s g : Point}
    (hbc : borderClearB m = true)
    (hso : m.get s.x s.y = some GridCell.Path) :
    ∀ (fuel k : Nat) (visited : List Point) (frontier : List (List Point)),
      LevelInv m s g visited frontier k →
      m.width * m.height + 1 ≤ visCard m visited + fuel →
      ((∀ steps, bfsLoop m g fuel visited frontier = some (some steps) →
        RouteFrom m s steps ∧ steps.getLast? = some g ∧
        ∀ l, RouteFrom m s l → l.getLast? = some g →
          steps.length ≤ l.length) ∧
      (bfsLoop m g fuel visited frontier = some none →
        ∀ l, RouteFrom m s l → l.getLast? ≠ some g) ∧
      bfsLoop m g fuel visited frontier ≠ none) := by
  intro fuel
  induction fuel with
  | zero =>
    intro k visited frontier hI hfuel
    have hcard := visCard_le m visited
    exact absurd hfuel (by omega)
  | succ fuel ih =>
    intro k visited frontier hI hfuel
    rcases hfr : frontier with _ | ⟨path, paths⟩
    · subst hfr
      obtain ⟨j1, j2, j3, j4, j5, j6, j7, j8⟩ := hI
      have hclosed : ∀ v ∈ visited, ∀ L, m.successors v = some L →
          ∀ b ∈ L, b ∈ visited := fun v hv =>
        j7 v hv (fun p hp => absurd hp (List.not_mem_nil p))
      refine ⟨?_, ?_, ?_⟩
      · intro steps hsteps
        rw [bfsLoop_nil] at hsteps
        exact absurd (Option.some.inj hsteps) (by simp)
      · intro _ l hl hlast
        have hhead : ∀ a : Point, l.head? = some a → a ∈ visited := by
          intro a ha
          rw [hl.2] at ha
          have := Option.some.inj ha
          rw [← this]
          exact j3
        have hg : g ∈ visited := route_closed hclosed l hl.1 hhead g hlast
        rcases j8 hg with ⟨p, hp, _⟩
        exact absurd hp (List.not_mem_nil p)
      · rw [bfsLoop_nil]
        simp
    · have hunf : bfsLoop m g (fuel + 1) visited (path :: paths) =
          (match (path :: paths).find?
              (fun q => decide (q.head? = some g)) with
           | some found => some (some found.reverse)
           | none =>
             match expandLevel m visited (path :: paths) with
             | none => none
             | some (v', frontier') => bfsLoop m g fuel v' frontier') := rfl
      subst hfr
      rcases hfind : (path :: paths).find?
          (fun q => decide (q.head? = some g)) with _ | found
      · have htot := levelInv_total hbc hso hI
        rcases expandLevel_total (path :: paths) visited htot with
          ⟨⟨v', frontier'⟩, hx⟩
        have hI' := levelInv_expand hI hfind hx
        rcases hfr' : frontier' with _ | ⟨q0, qs⟩
        · subst hfr'
          obtain ⟨j1', j2', j3', j4', j5', j6', j7', j8'⟩ := hI'
          have hclosed : ∀ v ∈ v', ∀ L, m.successors v = some L →
              ∀ b ∈ L, b ∈ v' := fun v hv =>
            j7' v hv (fun p hp => absurd hp (List.not_mem_nil p))
          have hres : bfsLoop m g (fuel + 1) visited (path :: paths) =
              some none := by
            rw [hunf, hfind, hx]
            exact bfsLoop_nil _ _ _ _
          refine ⟨?_, ?_, ?_⟩
          · intro steps hsteps
            rw [hres] at hsteps
            exact absurd (Option.some.inj hsteps) (by simp)
          · intro _ l hl hlast
            have hhead : ∀ a : Point, l.head? = some a → a ∈ v' := by
              intro a ha
              rw [hl.2] at ha
              have := Option.some.inj ha
              rw [← this]
              exact j3'
            have hg : g ∈ v' := route_closed hclosed l hl.1 hhead g hlast
            rcases j8' hg with ⟨p, hp, _⟩
            exact absurd hp (List.not_mem_nil p)
          · rw [hres]
            simp
        · subst hfr'
          obtain ⟨e1, e2, e3, e4⟩ :=
            expandLevel_spec (path :: paths) visited v' (q0 :: qs) hx
          rcases e2 q0 (List.mem_cons_self _ _) with
            ⟨pp, hpp, n, p, hh, hedge, hnv, hq0, hnv'⟩
          have hnopen := (edgeB_props hedge).2
          have hnb := get_some_bounds hnopen
          have hcard : visCard m visited < visCard m v' :=
            visCard_grow e1 hnv' hnv hnb
          have hfuel' : m.width * m.height + 1 ≤ visCard m v' + fuel := by
            omega
          obtain ⟨r1, r2, r3⟩ := ih (k + 1) v' (q0 :: qs) hI' hfuel'
          have hres : bfsLoop m g (fuel + 1) visited (path :: paths) =
              bfsLoop m g fuel v' (q0 :: qs) := by
            rw [hunf, hfind, hx]
          refine ⟨?_, ?_, ?_⟩
          · intro steps hsteps
            rw [hres] at hsteps
            exact r1 steps hsteps
          · intro hn
            rw [hres] at hn
            exact r2 hn
          · rw [hres]
            exact r3
      · obtain ⟨j1, j2, j3, j4, j5, j6, j7, j8⟩ := hI
        have hpred := List.find?_some hfind
        rw [decide_eq_true_eq] at hpred
        have hmem := List.mem_of_find?_eq_some hfind
        obtain ⟨⟨hne, hlast, hroute, hnodup⟩, _⟩ := j1 found hmem
        have hlen := j2 found hmem
        have hres : bfsLoop m g (fuel + 1) visited (path :: paths) =
            some (some found.reverse) := by
          rw [hunf, hfind]
        refine ⟨?_, ?_, ?_⟩
        · intro steps hsteps
          rw [hres] at hsteps
          have hst : found.reverse = steps :=
            Option.some.inj (Option.some.inj hsteps)
          rw [← hst]
          refine ⟨⟨hroute, by rw [List.head?_reverse]; exact hlast⟩,
            by rw [List.getLast?_reverse]; exact hpred, ?_⟩
          intro l hl hlast'
          by_contra hlt
          push_neg at hlt
          rw [List.length_reverse, hlen] at hlt
          have h6 := j6 l g hl hlast' (by omega)
          exact h6.2 found hmem hpred
        · intro hnone'
          rw [hres] at hnone'
          exact absurd (Option.some.inj hnone') (by simp)
        · rw [hres]
          simp

/-! ## C6: minimality of breadth-first and uniform-cost results -/

/-- C6 (counterexample): with both cells of a 2×1 grid `Open`, the two
endpoints are Open and connected by an Open route, yet neither the
breadth-first nor the uniform-cost selector returns any path: the very
first expansion calls `successors` on the border point `(0,0)`, which
panics. -/
theorem c6_counterexample :
    IsOpenRoute (((Maze.new 2 1).set 0 0 GridCell.Path).set 1 0
      GridCell.Path) ⟨0, 0⟩ ⟨1, 0⟩ [⟨0, 0⟩, ⟨1, 0⟩] ∧
    Path.calcSteps (((Maze.new 2 1).set 0 0 GridCell.Path).set 1 0
      GridCell.Path) ⟨0, 0⟩ ⟨1, 0⟩ Algorithm.Bfs = none ∧
    Path.calcSteps (((Maze.new 2 1).set 0 0 GridCell.Path).set 1 0
      GridCell.Path) ⟨0, 0⟩ ⟨1, 0⟩ Algorithm.Dijkstra = none := by
  decide

/-- C6 (amended): on a grid none of whose `Open` cells touches the
`x = 0` / `y = 0` border, for every pair of endpoints connected by an
Open-cell route, the breadth-first and the uniform-cost selectors return
one and the same path, which is an Open route from start to goal of
minimum length among all Open routes between them (length counted in
cells, i.e. number of steps plus one). -/
theorem c6_amended (m : Maze) (s g : Point) (l : List Point)
    (hbc : borderClearB m = true) (hr : IsOpenRoute m s g l) :
    ∃ steps, Path.calcSteps m s g Algorithm.Bfs = some steps ∧
      Path.calcSteps m s g Algorithm.Dijkstra = some steps ∧
      IsOpenRoute m s g steps ∧
      ∀ l2, IsOpenRoute m s g l2 → steps.length ≤ l2.length := by
  obtain ⟨hroute, hhead, hlast⟩ := hr
  have hso : m.get s.x s.y = some GridCell.Path := by
    rcases l with _ | ⟨a, t⟩
    · exact absurd hhead (by simp)
    · have ha := Option.some.inj hhead
      rw [← ha]
      exact openRoute_head hroute
  have her : RouteFrom m s l := ⟨openRoute_to_edgeRoute hbc l hroute, hhead⟩
  have hfuel : m.width * m.height + 1 ≤ visCard m [s] + searchFuel m := by
    unfold searchFuel
    omega
  obtain ⟨r1, r2, r3⟩ := bfsLoop_minimal hbc hso (searchFuel m) 0 [s] [[s]]
    (levelInv_init m s g) hfuel
  rcases hb : m.bfs s g with _ | o
  · exact absurd hb r3
  rcases o with _ | steps
  · exact absurd hlast (r2 hb l her)
  · obtain ⟨hrf, hg, hmin⟩ := r1 steps hb
    refine ⟨steps, ?_, ?_, ?_, ?_⟩
    · show (match m.bfs s g with
        | none => none
        | some none => none
        | some (some p) => some p) = some steps
      rw [hb]
    · show (match m.bfs s g with
        | none => none
        | some none => none
        | some (some p) => some p) = some steps
      rw [hb]
    · refine ⟨edgeRoute_to_openRoute steps hrf.1 ?_, hrf.2, hg⟩
      intro b hbb
      rw [hrf.2] at hbb
      have hsb := Option.some.inj hbb
      rw [← hsb]
      exact hso
    · intro l2 hl2
      exact hmin l2 ⟨openRoute_to_edgeRoute hbc l2 hl2.1, hl2.2.1⟩ hl2.2.2

/-- Witness for C6 (amended) on a 4×4 grid with two adjacent `Open` cells
away from the border. -/
theorem c6_amended_witness :
    ∃ steps, Path.calcSteps (((Maze.new 4 4).set 1 1 GridCell.Path).set 2 1
        GridCell.Path) ⟨1, 1⟩ ⟨2, 1⟩ Algorithm.Bfs = some steps ∧
      Path.calcSteps (((Maze.new 4 4).set 1 1 GridCell.Path).set 2 1
        GridCell.Path) ⟨1, 1⟩ ⟨2, 1⟩ Algorithm.Dijkstra = some steps ∧
      IsOpenRoute (((Maze.new 4 4).set 1 1 GridCell.Path).set 2 1
        GridCell.Path) ⟨1, 1⟩ ⟨2, 1⟩ steps ∧
      ∀ l2, IsOpenRoute (((Maze.new 4 4).set 1 1 GridCell.Path).set 2 1
        GridCell.Path) ⟨1, 1⟩ ⟨2, 1⟩ l2 → steps.length ≤ l2.length :=
  c6_amended (((Maze.new 4 4).set 1 1 GridCell.Path).set 2 1 GridCell.Path)
    ⟨1, 1⟩ ⟨2, 1⟩ [⟨1, 1⟩, ⟨2, 1⟩] (by decide) (by decide)
